import Mathlib

/-!
# Wren core primitives

A shallow embedding of `src/primitives.c` (the list primitives with `validateIndex` and
`ensureListCapacity`, the primitives of Bool, Num, Object and String that the claims are
about, the call family of Function and the bootstrap `wrenLoadCore`) together with
theorems about it.

Modelling conventions
* A C `int` is a mathematical integer (`Int`).  Signed overflow is undefined in C and
  is not modelled.
* A C `double` is `Double`: a finite value (a rational number), a NaN or an infinity.
* The element buffer of a list is a `List Value` with one entry per allocated slot.
  Reading slot `i` is `getD i.toNat Value.null`, writing it is `set i.toNat v`.
  Whether the memory behind `list->elements` is still the list's to use is tracked in
  the field `buffer`: `wrenReallocate` gives a block back to the allocator, and the code
  must go on with the pointer the call returns.
* Buffer sizes handed to `wrenReallocate` are kept in units of `sizeof(Value)`.
* A string value carries its character buffer; the C string it holds is the bytes before
  the first NUL (`cstring`).  The bytes of a freshly allocated buffer are a parameter,
  `uninit`.
* What `value.h` and `vm.c` declare (they are not among the sources) is modelled from the
  specification or taken as a parameter, and marked so.
-/

namespace Wren

/-! ## Numbers -/

/-- A C `double`: a finite value, a NaN or a signed infinity. -/
inductive Double where
  | finite (q : ℚ)
  | nan
  | inf (negative : Bool)
  deriving DecidableEq

namespace Double

/-- The conversion `(double)i` of an `int`. -/
def ofInt (i : Int) : Double := finite (i : ℚ)

/-- The cast `(int)d`: truncation toward zero, into the unbounded `int` of this model.
C leaves the cast of a NaN or of an infinity undefined; the value chosen here for them
is the one x86 produces, and `validateIndex` rejects them whatever it is, by the
comparison that follows the cast. -/
def toInt : Double → Int
  | finite q => if 0 ≤ q then ⌊q⌋ else ⌈q⌉
  | _ => -2147483648

/-- The comparison `a != b`. -/
def ne : Double → Double → Bool
  | finite a, finite b => decide (a ≠ b)
  | inf a, inf b => a != b
  | _, _ => true

/-- The comparison `a < b`. -/
def lt : Double → Double → Bool
  | finite a, finite b => decide (a < b)
  | finite _, inf negative => !negative
  | inf negative, finite _ => negative
  | inf a, inf b => a && !b
  | _, _ => false

/-- The comparison `a >= b`. -/
def ge : Double → Double → Bool
  | finite a, finite b => decide (b ≤ a)
  | finite _, inf negative => negative
  | inf negative, finite _ => !negative
  | inf a, inf b => !a || b
  | _, _ => false

/-- The sum `a + b`.  Finite operands are added exactly: rounding is not modelled (the
sums `validateIndex` forms are sums of two integers of `int` magnitude, which are
exact). -/
def add : Double → Double → Double
  | finite a, finite b => finite (a + b)
  | finite _, inf negative => inf negative
  | inf negative, finite _ => inf negative
  | inf a, inf b => if a = b then inf a else nan
  | _, _ => nan

end Double

/-! ## Values -/

/-- Modelled from the spec: the heap object kinds of `value.h` (not among the sources).
A string carries its character buffer, the terminating NUL and what follows it included;
the other kinds are references to a heap cell. -/
inductive Obj where
  | str (value : List Char)
  | list (addr : Nat)
  | fn (addr : Nat)
  | cls (addr : Nat)
  | inst (addr : Nat)
  deriving DecidableEq

/-- Modelled from the spec: the tagged `Value` of `value.h` (not among the sources):
a boolean, a number, null or a heap object. -/
inductive Value where
  | bool (b : Bool)
  | num (n : Double)
  | null
  | obj (o : Obj)
  deriving DecidableEq

namespace Value

/-- The macro `IS_NUM`. -/
def isNum : Value → Bool
  | num _ => true
  | _ => false

/-- The value `NUM_VAL(i)` of an integer `i`. -/
def ofInt (i : Int) : Value := num (Double.ofInt i)

end Value

/-! ## Lists -/

/-- What the pointer `list->elements` refers to, as far as the allocator goes.
`valid`: the pointer is `NULL` or refers to the block the list owns.
`stale`: the block has been handed to `wrenReallocate` and the pointer that call returned
has been dropped; the block is freed (new size 0) or resized, and whether the old pointer
still refers to it is up to the allocator.
`undefined`: the code has read, written or reallocated through a stale pointer. -/
inductive BufferState where
  | valid
  | stale
  | undefined
  deriving DecidableEq

/-- The code reads, writes or reallocates through the pointer and keeps what it has (for
a reallocation: stores the pointer returned). -/
def BufferState.use : BufferState → BufferState
  | BufferState.valid => BufferState.valid
  | _ => BufferState.undefined

/-- The code hands the block to `wrenReallocate` and drops the pointer returned. -/
def BufferState.drop : BufferState → BufferState
  | BufferState.valid => BufferState.stale
  | _ => BufferState.undefined

/-- The struct `ObjList`: the element buffer, the number of elements in use and the
number of allocated slots.  `elements` holds what the memory at `list->elements`
contains (the empty buffer for `NULL`), `buffer` whether that memory is still the
list's to use. -/
structure ObjList where
  elements : List Value
  count : Int
  capacity : Int
  buffer : BufferState := BufferState.valid
  deriving DecidableEq

def LIST_MIN_CAPACITY : Int := 16
def LIST_GROW_FACTOR : Int := 2

/-- A call of `wrenReallocate`, its sizes in units of `sizeof(Value)`. -/
structure ReallocCall where
  oldSize : Int
  newSize : Int
  deriving DecidableEq

/-- Modelled from the spec: `wrenReallocate` of `vm.c` (not among the sources), a
`reallocate(oldPointer, oldSize, newSize)` that resizes the buffer to `newSize` slots
and preserves the elements that fit; a new size of 0 frees the buffer.  Slots the
resize adds are uninitialised, here `Value.null`. -/
def wrenReallocate (memory : List Value) (_oldSize newSize : Int) : List Value :=
  memory.take newSize.toNat ++ List.replicate (newSize.toNat - memory.length) Value.null

/-- The function `ensureListCapacity`, which grows the list if needed so that it can
hold `count` elements.  The second component is the `wrenReallocate` call it made, if
any. -/
def ensureListCapacity (list : ObjList) (count : Int) : ObjList × Option ReallocCall :=
  if list.capacity ≥ count then (list, none)
  else
    let capacity := list.capacity * LIST_GROW_FACTOR
    let capacity := if capacity < LIST_MIN_CAPACITY then LIST_MIN_CAPACITY else capacity
    let list := { list with capacity := list.capacity * 2 }
    let call : ReallocCall := ⟨list.capacity, capacity⟩
    let list :=
      { list with elements := wrenReallocate list.elements call.oldSize call.newSize,
                  buffer := list.buffer.use }
    ({ list with capacity := capacity }, some call)

/-- The function `validateIndex`: the valid position of `index` in `[0, count)`, counting
a negative index from the end, or -1. -/
def validateIndex (index : Value) (count : Int) : Int :=
  match index with
  | Value.num indexNum =>
    let intIndex := indexNum.toInt
    if indexNum.ne (Double.ofInt intIndex) then -1
    else
      let indexNum :=
        if indexNum.lt (Double.ofInt 0) then (Double.ofInt count).add indexNum else indexNum
      if indexNum.lt (Double.ofInt 0) || indexNum.ge (Double.ofInt count) then -1
      else indexNum.toInt
  | _ => -1

/-- The primitive `list_add`: the returned value and the list afterwards. -/
def primitive_list_add (list : ObjList) (value : Value) : Value × ObjList :=
  let list := (ensureListCapacity list (list.count + 1)).1
  let list := { list with elements := list.elements.set list.count.toNat value,
                          buffer := list.buffer.use,
                          count := list.count + 1 }
  (value, list)

/-- The primitive `list_clear`.  The code discards what `wrenReallocate` returns: the
field `elements` is left as it is, pointing at the block the call has freed (unless it
was `NULL`, the empty buffer). -/
def primitive_list_clear (list : ObjList) : Value × ObjList :=
  let _freed := wrenReallocate list.elements list.capacity 0
  let list := { list with buffer := if list.elements = [] then list.buffer else list.buffer.drop }
  let list := { list with capacity := 0 }
  let list := { list with count := 0 }
  (Value.null, list)

/-- The primitive `list_count`. -/
def primitive_list_count (list : ObjList) : Value :=
  Value.ofInt list.count

/-- The loop of `list_insert` that moves the elements from `index` on up by one slot:
`n` iterations remain and the loop variable `i` is `index + n`. -/
def insertShift (elements : List Value) (index : Int) : Nat → List Value
  | 0 => elements
  | n + 1 =>
    let i := index + (n + 1 : Nat)
    insertShift (elements.set i.toNat (elements.getD (i - 1).toNat Value.null)) index n

/-- The primitive `list_insert`, called with the value and the index. -/
def primitive_list_insert (list : ObjList) (value index : Value) : Value × ObjList :=
  let index := validateIndex index (list.count + 1)
  if index = -1 then (Value.null, list)
  else
    let list := (ensureListCapacity list (list.count + 1)).1
    let elements := insertShift list.elements index (list.count - index).toNat
    let elements := elements.set index.toNat value
    (value, { list with elements := elements, buffer := list.buffer.use,
                        count := list.count + 1 })

/-- The loop of `list_removeAt` that moves the elements after the removed one down by
one slot: `n` iterations remain and the loop variable is `i`. -/
def removeShift (elements : List Value) (i : Int) : Nat → List Value
  | 0 => elements
  | n + 1 =>
    removeShift (elements.set i.toNat (elements.getD (i + 1).toNat Value.null)) (i + 1) n

/-- The primitive `list_removeAt`.  When it shrinks the buffer the code discards what
`wrenReallocate` returns: the field `elements` is left as the loop made it, pointing at
the block the call has resized. -/
def primitive_list_removeAt (list : ObjList) (index : Value) : Value × ObjList :=
  let index := validateIndex index list.count
  if index = -1 then (Value.null, list)
  else
    let removed := list.elements.getD index.toNat Value.null
    let elements := removeShift list.elements index (list.count - 1 - index).toNat
    let list := { list with elements := elements, buffer := list.buffer.use }
    let list :=
      if Int.tdiv list.capacity LIST_GROW_FACTOR ≥ list.count then
        let _shrunk := wrenReallocate list.elements list.capacity
          (Int.tdiv list.capacity LIST_GROW_FACTOR)
        { list with buffer := list.buffer.drop,
                    capacity := Int.tdiv list.capacity LIST_GROW_FACTOR }
      else list
    (removed, { list with count := list.count - 1 })

/-- The primitive `list_subscript`.  It returns a value only: the read it makes through
`list->elements` leaves no trace in the list. -/
def primitive_list_subscript (list : ObjList) (index : Value) : Value :=
  let index := validateIndex index list.count
  if index = -1 then Value.null
  else list.elements.getD index.toNat Value.null

/-! ## Specification vocabulary -/

/-- The empty list: no buffer, count 0 and capacity 0. -/
def ObjList.empty : ObjList := { elements := [], count := 0, capacity := 0 }

/-- The elements of a list: the first `count` slots of its buffer. -/
def ObjList.items (list : ObjList) : List Value :=
  list.elements.take list.count.toNat

/-- The invariant `0 ≤ count ≤ capacity`. -/
def ObjList.Inv (list : ObjList) : Prop :=
  0 ≤ list.count ∧ list.count ≤ list.capacity

/-- A well-formed list: `0 ≤ count ≤ capacity` and the buffer `elements` refers to has
room for `capacity` slots.  (It has exactly `capacity` slots after a growth; the buffer
that `list_removeAt` and `list_clear` leave behind in `elements` is the one of before
the shrink.) -/
def ObjList.WF (list : ObjList) : Prop :=
  list.Inv ∧ list.capacity ≤ (list.elements.length : Int)

instance (list : ObjList) : Decidable list.Inv := by
  unfold ObjList.Inv; infer_instance

instance (list : ObjList) : Decidable list.WF := by
  unfold ObjList.WF; infer_instance

/-- The list after calling `list_add` with each of the values in turn. -/
def addAll (list : ObjList) (values : List Value) : ObjList :=
  values.foldl (fun l v => (primitive_list_add l v).2) list

/-- The list after calling `list_removeAt` with each of the indices in turn. -/
def removeAll (list : ObjList) (indices : List Value) : ObjList :=
  indices.foldl (fun l i => (primitive_list_removeAt l i).2) list

/-- Every index of a run of `list_removeAt` calls is valid when its call is made. -/
def validRemovals : ObjList → List Value → Bool
  | _, [] => true
  | l, i :: rest =>
    validateIndex i l.count != -1 && validRemovals (primitive_list_removeAt l i).2 rest

/-- A call of one of the four mutating list primitives, with its arguments. -/
inductive ListOp where
  | add (value : Value)
  | insert (value index : Value)
  | removeAt (index : Value)
  | clear
  deriving DecidableEq

/-- The list after the call. -/
def ListOp.apply : ListOp → ObjList → ObjList
  | ListOp.add value, l => (primitive_list_add l value).2
  | ListOp.insert value index, l => (primitive_list_insert l value index).2
  | ListOp.removeAt index, l => (primitive_list_removeAt l index).2
  | ListOp.clear, l => (primitive_list_clear l).2

/-- Whether the call is a `list_removeAt`. -/
def ListOp.isRemoveAt : ListOp → Bool
  | ListOp.removeAt _ => true
  | _ => false

/-- The list after a sequence of calls. -/
def runOps (list : ObjList) (ops : List ListOp) : ObjList :=
  ops.foldl (fun l op => op.apply l) list

/-- The invariant of a run of removals: the list is well-formed, its capacity is a power
of two that is at most 16 or at most twice the count, and at most 8 once the list is
empty. -/
def ShrinkInv (l : ObjList) : Prop :=
  l.WF ∧ (∃ k : Nat, l.capacity = 2 ^ k) ∧ (l.capacity ≤ 16 ∨ l.capacity ≤ 2 * l.count) ∧
    (l.count = 0 → l.capacity ≤ 8)

/-! ## Numbers: the remaining comparisons and the arithmetic -/

namespace Double

/-- The comparison `a == b`. -/
def eq : Double → Double → Bool
  | finite a, finite b => decide (a = b)
  | inf a, inf b => a == b
  | _, _ => false

/-- The comparison `a > b`. -/
def gt : Double → Double → Bool
  | finite a, finite b => decide (b < a)
  | finite _, inf negative => negative
  | inf negative, finite _ => !negative
  | inf a, inf b => !a && b
  | _, _ => false

/-- The comparison `a <= b`. -/
def le : Double → Double → Bool
  | finite a, finite b => decide (a ≤ b)
  | finite _, inf negative => !negative
  | inf negative, finite _ => negative
  | inf a, inf b => a || !b
  | _, _ => false

end Double

/-- The arithmetic of C doubles that the number primitives use (`-`, `+`, `*`, `/` and
`fmod`).  Its rounding is outside this model, so the operations are a parameter. -/
structure FloatOps where
  sub : Double → Double → Double
  add : Double → Double → Double
  mul : Double → Double → Double
  div : Double → Double → Double
  fmod : Double → Double → Double

/-! ## The macros of `value.h` -/

/-- Modelled from the spec: the macro `IS_NUM` of `value.h` (not among the sources). -/
def IS_NUM (value : Value) : Bool := value.isNum

/-- Modelled from the spec: the macro `IS_STRING` of `value.h` (not among the sources). -/
def IS_STRING : Value → Bool
  | Value.obj (Obj.str _) => true
  | _ => false

/-- Modelled from the spec: the macro `AS_NUM` of `value.h` (not among the sources), the
number a number value holds.  Applied to a value of another kind it reads memory that
holds no number; a NaN here. -/
def AS_NUM : Value → Double
  | Value.num n => n
  | _ => Double.nan

/-- Modelled from the spec: the macro `AS_BOOL` of `value.h` (not among the sources). -/
def AS_BOOL : Value → Bool
  | Value.bool b => b
  | _ => false

/-- Modelled from the spec: the macro `AS_CSTRING` of `value.h` (not among the sources),
the character buffer of a string value (for `AS_STRING(v)->value` as well). -/
def AS_CSTRING : Value → List Char
  | Value.obj (Obj.str value) => value
  | _ => []

/-! ## C strings -/

/-- The character `'\0'`. -/
def NUL : Char := Char.ofNat 0

/-- The C string a buffer holds: its bytes before the first NUL. -/
def cstring (buffer : List Char) : List Char :=
  buffer.takeWhile (fun c => c != NUL)

/-- The library function `strlen`. -/
def strlen (s : List Char) : Nat := (cstring s).length

/-- The library function `strcmp`, up to the magnitude of a non-zero result. -/
def strcmp (a b : List Char) : Int :=
  if cstring a = cstring b then 0 else if cstring a < cstring b then -1 else 1

/-- Writing bytes into a buffer from an offset on. -/
def writeBytes (dest : List Char) (offset : Nat) : List Char → List Char
  | [] => dest
  | c :: cs => writeBytes (dest.set offset c) (offset + 1) cs

/-- The library function `strcpy`, `strcpy(dest + offset, src)`: it copies the C string of
`src` and its terminating NUL. -/
def strcpy (dest : List Char) (offset : Nat) (src : List Char) : List Char :=
  writeBytes dest offset (cstring src ++ [NUL])

/-- Modelled from the spec: `wrenNewString` of `vm.c` (not among the sources), a new string
whose buffer has room for `length` bytes and the terminator after them.  With a text the
first `length` bytes of it are copied and terminated; without one (`NULL`) the buffer is
uninitialised, its bytes given by `uninit`. -/
def wrenNewString (uninit : Nat → Char) (text : Option (List Char)) (length : Nat) : Value :=
  match text with
  | some t =>
    Value.obj (Obj.str (t.take length ++ List.replicate (length - t.length) NUL ++ [NUL]))
  | none => Value.obj (Obj.str ((List.range (length + 1)).map uninit))

/-! ## The virtual machine and its bootstrap -/

/-- The primitives `DEF_PRIMITIVE` and `DEF_FIBER_PRIMITIVE` define, as the function
pointers a method slot holds. -/
inductive Prim where
  | bool_not | bool_toString
  | fn_call0 | fn_call1 | fn_call2 | fn_call3 | fn_call4 | fn_call5 | fn_call6 | fn_call7
  | fn_call8
  | list_add | list_clear | list_count | list_insert | list_removeAt | list_subscript
  | num_abs | num_toString | num_negate | num_minus | num_plus | num_multiply | num_divide
  | num_mod | num_lt | num_gt | num_lte | num_gte | num_eqeq | num_bangeq
  | object_eqeq | object_bangeq | object_type
  | string_contains | string_count | string_toString | string_plus | string_eqeq
  | string_bangeq | string_subscript
  | io_write | os_clock
  deriving DecidableEq

/-- Modelled from the spec: the method slot of `value.h` (not among the sources), a tagged
variant: unset, primitive, fiber-primitive or bytecode closure. -/
inductive Method where
  | none
  | primitive (prim : Prim)
  | fiber (prim : Prim)
  | block (fn : Nat)
  deriving DecidableEq

/-- Modelled from the spec: the class object of `value.h` (not among the sources): the
metaclass and superclass references (heap addresses) and the method table, here the
slots that have been set, the latest first. -/
structure ObjClass where
  metaclass : Option Nat
  superclass : Option Nat
  methods : List (Nat × Method)
  deriving DecidableEq

/-- The slot `cls->methods[symbol]`. -/
def ObjClass.method (cls : ObjClass) (symbol : Nat) : Method :=
  match cls.methods.find? (fun slot => slot.1 == symbol) with
  | some slot => slot.2
  | Option.none => Method.none

/-- Modelled from the spec: the `WrenVM` of `vm.h` (not among the sources), as far as the
bootstrap uses it: the two symbol tables, the globals, the class objects (the address of
a class is its position) and the instances (each with the address of its class), the
core classes and the "unsupported" sentinel. -/
structure WrenVM where
  methods : List String
  globalSymbols : List String
  globals : List (Nat × Value)
  classes : List ObjClass
  instances : List Nat
  objectClass : Nat
  classClass : Nat
  boolClass : Nat
  fnClass : Nat
  listClass : Nat
  nullClass : Nat
  numClass : Nat
  stringClass : Nat
  unsupported : Value
  deriving DecidableEq

/-- Modelled from the spec: the VM before the bootstrap, with empty symbol tables and no
object yet. -/
def WrenVM.new : WrenVM :=
  { methods := [], globalSymbols := [], globals := [], classes := [], instances := [],
    objectClass := 0, classClass := 0, boolClass := 0, fnClass := 0, listClass := 0,
    nullClass := 0, numClass := 0, stringClass := 0, unsupported := Value.null }

/-- Modelled from the spec: `ensureSymbol` of `vm.c` (not among the sources): the id of the
name if it is interned, else the id it gets by being appended. -/
def ensureSymbol (symbols : List String) (name : String) : List String × Nat :=
  if name ∈ symbols then (symbols, symbols.indexOf name)
  else (symbols ++ [name], symbols.length)

/-- Modelled from the spec: `addSymbol` of `vm.c` (not among the sources): the name is
appended and gets the next id. -/
def addSymbol (symbols : List String) (name : String) : List String × Nat :=
  (symbols ++ [name], symbols.length)

/-- Modelled from the spec: `wrenNewClass` of `vm.c` (not among the sources): a new
metaclass and a new class that refers to it and to the superclass, both with every method
slot unset.  The address of the class is returned. -/
def wrenNewClass (vm : WrenVM) (superclass : Option Nat) : WrenVM × Nat :=
  let metaclass : ObjClass := { metaclass := Option.none, superclass := Option.none, methods := [] }
  let classObj : ObjClass :=
    { metaclass := some vm.classes.length, superclass := superclass, methods := [] }
  ({ vm with classes := vm.classes ++ [metaclass, classObj] }, vm.classes.length + 1)

/-- Modelled from the spec: `wrenNewInstance` of `vm.c` (not among the sources): a new
instance of the class. -/
def wrenNewInstance (vm : WrenVM) (classObj : Nat) : WrenVM × Value :=
  ({ vm with instances := vm.instances ++ [classObj] },
    Value.obj (Obj.inst vm.instances.length))

/-- The function `defineClass`. -/
def defineClass (vm : WrenVM) (name : String) (superclass : Option Nat) : WrenVM × Nat :=
  let classObj := wrenNewClass vm superclass
  let vm := classObj.1
  let symbol := addSymbol vm.globalSymbols name
  let vm := { vm with globalSymbols := symbol.1 }
  let vm := { vm with globals := (symbol.2, Value.obj (Obj.cls classObj.2)) :: vm.globals }
  (vm, classObj.2)

/-- The assignment to `cls->methods[symbol]` of a class at an address. -/
def setMethod (vm : WrenVM) (cls symbol : Nat) (method : Method) : WrenVM :=
  let classes := List.modify
    (fun (c : ObjClass) => { c with methods := (symbol, method) :: c.methods }) cls vm.classes
  { vm with classes := classes }

/-- The macro `PRIMITIVE`. -/
def PRIMITIVE (vm : WrenVM) (cls : Nat) (name : String) (prim : Prim) : WrenVM :=
  let symbol := ensureSymbol vm.methods name
  let vm := { vm with methods := symbol.1 }
  setMethod vm cls symbol.2 (Method.primitive prim)

/-- The macro `FIBER_PRIMITIVE`. -/
def FIBER_PRIMITIVE (vm : WrenVM) (cls : Nat) (name : String) (prim : Prim) : WrenVM :=
  let symbol := ensureSymbol vm.methods name
  let vm := { vm with methods := symbol.1 }
  setMethod vm cls symbol.2 (Method.fiber prim)

/-- The metaclass `cls->metaclass` of a class at an address. -/
def metaclassOf (vm : WrenVM) (cls : Nat) : Nat :=
  match vm.classes[cls]? with
  | some c => c.metaclass.getD 0
  | Option.none => 0

/-- The function `wrenLoadCore`. -/
def wrenLoadCore (vm : WrenVM) : WrenVM :=
  let classObj := defineClass vm "Object" Option.none
  let vm := { classObj.1 with objectClass := classObj.2 }
  let vm := PRIMITIVE vm vm.objectClass "== " Prim.object_eqeq
  let vm := PRIMITIVE vm vm.objectClass "!= " Prim.object_bangeq
  let vm := PRIMITIVE vm vm.objectClass "type" Prim.object_type
  let classObj := defineClass vm "Class" (some vm.objectClass)
  let vm := { classObj.1 with classClass := classObj.2 }
  let classObj := defineClass vm "Bool" (some vm.objectClass)
  let vm := { classObj.1 with boolClass := classObj.2 }
  let vm := PRIMITIVE vm vm.boolClass "toString" Prim.bool_toString
  let vm := PRIMITIVE vm vm.boolClass "!" Prim.bool_not
  let classObj := defineClass vm "Function" (some vm.objectClass)
  let vm := { classObj.1 with fnClass := classObj.2 }
  let vm := FIBER_PRIMITIVE vm vm.fnClass "call" Prim.fn_call0
  let vm := FIBER_PRIMITIVE vm vm.fnClass "call " Prim.fn_call1
  let vm := FIBER_PRIMITIVE vm vm.fnClass "call  " Prim.fn_call2
  let vm := FIBER_PRIMITIVE vm vm.fnClass "call   " Prim.fn_call3
  let vm := FIBER_PRIMITIVE vm vm.fnClass "call    " Prim.fn_call4
  let vm := FIBER_PRIMITIVE vm vm.fnClass "call     " Prim.fn_call5
  let vm := FIBER_PRIMITIVE vm vm.fnClass "call      " Prim.fn_call6
  let vm := FIBER_PRIMITIVE vm vm.fnClass "call       " Prim.fn_call7
  let vm := FIBER_PRIMITIVE vm vm.fnClass "call        " Prim.fn_call8
  let classObj := defineClass vm "List" (some vm.objectClass)
  let vm := { classObj.1 with listClass := classObj.2 }
  let vm := PRIMITIVE vm vm.listClass "add " Prim.list_add
  let vm := PRIMITIVE vm vm.listClass "clear" Prim.list_clear
  let vm := PRIMITIVE vm vm.listClass "count" Prim.list_count
  let vm := PRIMITIVE vm vm.listClass "insert  " Prim.list_insert
  let vm := PRIMITIVE vm vm.listClass "removeAt " Prim.list_removeAt
  let vm := PRIMITIVE vm vm.listClass "[ ]" Prim.list_subscript
  let classObj := defineClass vm "Null" (some vm.objectClass)
  let vm := { classObj.1 with nullClass := classObj.2 }
  let classObj := defineClass vm "Num" (some vm.objectClass)
  let vm := { classObj.1 with numClass := classObj.2 }
  let vm := PRIMITIVE vm vm.numClass "abs" Prim.num_abs
  let vm := PRIMITIVE vm vm.numClass "toString" Prim.num_toString
  let vm := PRIMITIVE vm vm.numClass "-" Prim.num_negate
  let vm := PRIMITIVE vm vm.numClass "- " Prim.num_minus
  let vm := PRIMITIVE vm vm.numClass "+ " Prim.num_plus
  let vm := PRIMITIVE vm vm.numClass "* " Prim.num_multiply
  let vm := PRIMITIVE vm vm.numClass "/ " Prim.num_divide
  let vm := PRIMITIVE vm vm.numClass "% " Prim.num_mod
  let vm := PRIMITIVE vm vm.numClass "< " Prim.num_lt
  let vm := PRIMITIVE vm vm.numClass "> " Prim.num_gt
  let vm := PRIMITIVE vm vm.numClass "<= " Prim.num_lte
  let vm := PRIMITIVE vm vm.numClass ">= " Prim.num_gte
  let vm := PRIMITIVE vm vm.numClass "== " Prim.num_eqeq
  let vm := PRIMITIVE vm vm.numClass "!= " Prim.num_bangeq
  let classObj := defineClass vm "String" (some vm.objectClass)
  let vm := { classObj.1 with stringClass := classObj.2 }
  let vm := PRIMITIVE vm vm.stringClass "contains " Prim.string_contains
  let vm := PRIMITIVE vm vm.stringClass "count" Prim.string_count
  let vm := PRIMITIVE vm vm.stringClass "toString" Prim.string_toString
  let vm := PRIMITIVE vm vm.stringClass "+ " Prim.string_plus
  let vm := PRIMITIVE vm vm.stringClass "== " Prim.string_eqeq
  let vm := PRIMITIVE vm vm.stringClass "!= " Prim.string_bangeq
  let vm := PRIMITIVE vm vm.stringClass "[ ]" Prim.string_subscript
  let ioClass := defineClass vm "IO" (some vm.objectClass)
  let vm := PRIMITIVE ioClass.1 ioClass.2 "write " Prim.io_write
  let ioObject := wrenNewInstance vm ioClass.2
  let vm := ioObject.1
  let symbol := addSymbol vm.globalSymbols "io"
  let vm := { vm with globalSymbols := symbol.1 }
  let vm := { vm with globals := (symbol.2, ioObject.2) :: vm.globals }
  let osClass := defineClass vm "OS" (some vm.objectClass)
  let vm := PRIMITIVE osClass.1 (metaclassOf osClass.1 osClass.2) "clock" Prim.os_clock
  let unsupportedClass := wrenNewClass vm (some vm.objectClass)
  let unsupported := wrenNewInstance unsupportedClass.1 unsupportedClass.2
  { unsupported.1 with unsupported := unsupported.2 }

/-- Modelled from the spec: an activation on the call stack of a fiber: the closure and
the number of argument slots it is started with. -/
structure CallFrame where
  fn : Value
  numArgs : Int
  deriving DecidableEq

/-- Modelled from the spec: a fiber, as far as the call primitives use it: its call
stack, the latest activation first. -/
structure Fiber where
  frames : List CallFrame
  deriving DecidableEq

/-- Modelled from the spec: `callFunction` of `vm.c` (not among the sources), which pushes
a new activation for the closure with `numArgs` argument slots. -/
def callFunction (fiber : Fiber) (fn : Value) (numArgs : Int) : Fiber :=
  { frames := { fn := fn, numArgs := numArgs } :: fiber.frames }

/-- Modelled from the spec: the macro `AS_FN` of `value.h` (not among the sources), which
reads a value as its function object; the object is named by the value here. -/
def AS_FN (value : Value) : Value := value

/-- The fiber primitive `fn_call0`: the fiber afterwards. -/
def primitive_fn_call0 (fiber : Fiber) (args0 : Value) : Fiber :=
  callFunction fiber (AS_FN args0) 1
/-- The fiber primitive `fn_call1`: the fiber afterwards. -/
def primitive_fn_call1 (fiber : Fiber) (args0 : Value) : Fiber :=
  callFunction fiber (AS_FN args0) 2
/-- The fiber primitive `fn_call2`: the fiber afterwards. -/
def primitive_fn_call2 (fiber : Fiber) (args0 : Value) : Fiber :=
  callFunction fiber (AS_FN args0) 3
/-- The fiber primitive `fn_call3`: the fiber afterwards. -/
def primitive_fn_call3 (fiber : Fiber) (args0 : Value) : Fiber :=
  callFunction fiber (AS_FN args0) 4
/-- The fiber primitive `fn_call4`: the fiber afterwards. -/
def primitive_fn_call4 (fiber : Fiber) (args0 : Value) : Fiber :=
  callFunction fiber (AS_FN args0) 5
/-- The fiber primitive `fn_call5`: the fiber afterwards. -/
def primitive_fn_call5 (fiber : Fiber) (args0 : Value) : Fiber :=
  callFunction fiber (AS_FN args0) 6
/-- The fiber primitive `fn_call6`: the fiber afterwards. -/
def primitive_fn_call6 (fiber : Fiber) (args0 : Value) : Fiber :=
  callFunction fiber (AS_FN args0) 7
/-- The fiber primitive `fn_call7`: the fiber afterwards. -/
def primitive_fn_call7 (fiber : Fiber) (args0 : Value) : Fiber :=
  callFunction fiber (AS_FN args0) 8
/-- The fiber primitive `fn_call8`: the fiber afterwards. -/
def primitive_fn_call8 (fiber : Fiber) (args0 : Value) : Fiber :=
  callFunction fiber (AS_FN args0) 9

/-- The function behind a fiber-primitive pointer (`primitive_##prim` in the macro
`FIBER_PRIMITIVE`). -/
def Prim.fiberPrimitive : Prim → Option (Fiber → Value → Fiber)
  | Prim.fn_call0 => some primitive_fn_call0
  | Prim.fn_call1 => some primitive_fn_call1
  | Prim.fn_call2 => some primitive_fn_call2
  | Prim.fn_call3 => some primitive_fn_call3
  | Prim.fn_call4 => some primitive_fn_call4
  | Prim.fn_call5 => some primitive_fn_call5
  | Prim.fn_call6 => some primitive_fn_call6
  | Prim.fn_call7 => some primitive_fn_call7
  | Prim.fn_call8 => some primitive_fn_call8
  | _ => Option.none

/-! ## The primitives of Bool, Num, Object and String -/

/-- The primitive `bool_toString`. -/
def primitive_bool_toString (uninit : Nat → Char) (args0 : Value) : Value :=
  if AS_BOOL args0 then wrenNewString uninit (some ['t', 'r', 'u', 'e']) 4
  else wrenNewString uninit (some ['f', 'a', 'l', 's', 'e']) 5

/-- The primitive `num_minus`. -/
def primitive_num_minus (ops : FloatOps) (vm : WrenVM) (args0 args1 : Value) : Value :=
  if !IS_NUM args1 then vm.unsupported
  else Value.num (ops.sub (AS_NUM args0) (AS_NUM args1))

/-- The primitive `num_plus`. -/
def primitive_num_plus (ops : FloatOps) (vm : WrenVM) (args0 args1 : Value) : Value :=
  if !IS_NUM args1 then vm.unsupported
  else Value.num (ops.add (AS_NUM args0) (AS_NUM args1))

/-- The primitive `num_multiply`. -/
def primitive_num_multiply (ops : FloatOps) (vm : WrenVM) (args0 args1 : Value) : Value :=
  if !IS_NUM args1 then vm.unsupported
  else Value.num (ops.mul (AS_NUM args0) (AS_NUM args1))

/-- The primitive `num_divide`. -/
def primitive_num_divide (ops : FloatOps) (vm : WrenVM) (args0 args1 : Value) : Value :=
  if !IS_NUM args1 then vm.unsupported
  else Value.num (ops.div (AS_NUM args0) (AS_NUM args1))

/-- The primitive `num_mod`. -/
def primitive_num_mod (ops : FloatOps) (vm : WrenVM) (args0 args1 : Value) : Value :=
  if !IS_NUM args1 then vm.unsupported
  else Value.num (ops.fmod (AS_NUM args0) (AS_NUM args1))

/-- The primitive `num_lt`. -/
def primitive_num_lt (vm : WrenVM) (args0 args1 : Value) : Value :=
  if !IS_NUM args1 then vm.unsupported
  else Value.bool ((AS_NUM args0).lt (AS_NUM args1))

/-- The primitive `num_gt`. -/
def primitive_num_gt (vm : WrenVM) (args0 args1 : Value) : Value :=
  if !IS_NUM args1 then vm.unsupported
  else Value.bool ((AS_NUM args0).gt (AS_NUM args1))

/-- The primitive `num_lte`. -/
def primitive_num_lte (vm : WrenVM) (args0 args1 : Value) : Value :=
  if !IS_NUM args1 then vm.unsupported
  else Value.bool ((AS_NUM args0).le (AS_NUM args1))

/-- The primitive `num_gte`. -/
def primitive_num_gte (vm : WrenVM) (args0 args1 : Value) : Value :=
  if !IS_NUM args1 then vm.unsupported
  else Value.bool ((AS_NUM args0).ge (AS_NUM args1))

/-- The primitive `num_eqeq`. -/
def primitive_num_eqeq (args0 args1 : Value) : Value :=
  if !IS_NUM args1 then Value.bool false
  else Value.bool ((AS_NUM args0).eq (AS_NUM args1))

/-- The primitive `num_bangeq`. -/
def primitive_num_bangeq (args0 args1 : Value) : Value :=
  if !IS_NUM args1 then Value.bool true
  else Value.bool ((AS_NUM args0).ne (AS_NUM args1))

/-- The primitive `object_eqeq`; `wrenValuesEqual` of `value.c` (not among the sources) is
a parameter. -/
def primitive_object_eqeq (wrenValuesEqual : Value → Value → Bool) (args0 args1 : Value) :
    Value :=
  Value.bool (wrenValuesEqual args0 args1)

/-- The primitive `object_bangeq`; `wrenValuesEqual` of `value.c` (not among the sources)
is a parameter. -/
def primitive_object_bangeq (wrenValuesEqual : Value → Value → Bool) (args0 args1 : Value) :
    Value :=
  Value.bool (!wrenValuesEqual args0 args1)

/-- The primitive `string_toString`. -/
def primitive_string_toString (args0 : Value) : Value := args0

/-- The primitive `string_plus`: the new string, whose buffer the two `strcpy` calls and
the final store fill.  `uninit` gives the bytes of the buffer as allocated. -/
def primitive_string_plus (uninit : Nat → Char) (vm : WrenVM) (args0 args1 : Value) : Value :=
  if !IS_STRING args1 then vm.unsupported
  else
    let left := AS_CSTRING args0
    let right := AS_CSTRING args1
    let leftLength := strlen left
    let rightLength := strlen right
    let value := wrenNewString uninit Option.none (leftLength + rightLength)
    let string := AS_CSTRING value
    let string := strcpy string 0 left
    let string := strcpy string leftLength right
    let string := string.set (leftLength + rightLength) NUL
    Value.obj (Obj.str string)

/-- The primitive `string_eqeq`. -/
def primitive_string_eqeq (args0 args1 : Value) : Value :=
  if !IS_STRING args1 then Value.bool false
  else
    let a := AS_CSTRING args0
    let b := AS_CSTRING args1
    Value.bool (strcmp a b == 0)

/-- The primitive `string_bangeq`. -/
def primitive_string_bangeq (args0 args1 : Value) : Value :=
  if !IS_STRING args1 then Value.bool true
  else
    let a := AS_CSTRING args0
    let b := AS_CSTRING args1
    Value.bool (strcmp a b != 0)

/-- The primitive `string_subscript`: Null, or the new one-character string.  `uninit`
gives the bytes of its buffer as allocated. -/
def primitive_string_subscript (uninit : Nat → Char) (args0 args1 : Value) : Value :=
  if !IS_NUM args1 then Value.null
  else
    let indexNum := AS_NUM args1
    let index := indexNum.toInt
    if indexNum.ne (Double.ofInt index) then Value.null
    else
      let string := AS_CSTRING args0
      let length : Int := (strlen string : Nat)
      let index := if index < 0 then length + index else index
      if index < 0 ∨ index ≥ length then Value.null
      else
        let value := wrenNewString uninit Option.none 2
        let result := AS_CSTRING value
        let result := result.set 0 ((AS_CSTRING args0).getD index.toNat NUL)
        let result := result.set 1 NUL
        Value.obj (Obj.str result)

/-! ## Specification vocabulary of the bootstrap -/

/-- The method name `call` followed by `n` spaces. -/
def callName (n : Nat) : String := "call" ++ String.mk (List.replicate n ' ')

/-- The primitive `fn_call<n>`. -/
def fnCall : Nat → Prim
  | 0 => Prim.fn_call0
  | 1 => Prim.fn_call1
  | 2 => Prim.fn_call2
  | 3 => Prim.fn_call3
  | 4 => Prim.fn_call4
  | 5 => Prim.fn_call5
  | 6 => Prim.fn_call6
  | 7 => Prim.fn_call7
  | _ => Prim.fn_call8

/-- The method slot a class has for a method name: the slot of the symbol the name is
interned as, unset when the name is not interned or the address holds no class. -/
def findMethod (vm : WrenVM) (cls : Nat) (name : String) : Method :=
  if name ∈ vm.methods then
    match vm.classes[cls]? with
    | some c => c.method (vm.methods.indexOf name)
    | Option.none => Method.none
  else Method.none

/-! # Theorems -/

/-! ## The buffer and the two shifting loops -/

theorem wrenReallocate_length (memory : List Value) (oldSize newSize : Int) :
    (wrenReallocate memory oldSize newSize).length = newSize.toNat := by
  simp [wrenReallocate]
  omega

theorem wrenReallocate_getElem? (memory : List Value) (oldSize newSize : Int) (j : Nat)
    (hj : j < newSize.toNat) (hj' : j < memory.length) :
    (wrenReallocate memory oldSize newSize)[j]? = memory[j]? := by
  unfold wrenReallocate
  rw [List.getElem?_append_left (by simp; omega), List.getElem?_take]
  simp [hj]

theorem insertShift_getElem? (n : Nat) : ∀ (elements : List Value) (idx j : Nat),
    idx + n < elements.length →
    (insertShift elements (idx : Int) n)[j]? =
      if idx < j ∧ j ≤ idx + n then elements[j - 1]? else elements[j]? := by
  induction n with
  | zero =>
    intro elements idx j _
    have : ¬ (idx < j ∧ j ≤ idx + 0) := by omega
    rw [if_neg this]
    rfl
  | succ n ih =>
    intro elements idx j h
    have e1 : ((idx : Int) + ((n + 1 : Nat) : Int)).toNat = idx + n + 1 := by omega
    have e2 : ((idx : Int) + ((n + 1 : Nat) : Int) - 1).toNat = idx + n := by omega
    simp only [insertShift, e1, e2]
    rw [ih _ idx j (by simp; omega)]
    rw [List.getD_eq_getElem _ _ (by omega : idx + n < elements.length)]
    simp only [List.getElem?_set]
    by_cases hj : j = idx + n + 1
    · subst hj
      have h1 : ¬ (idx < idx + n + 1 ∧ idx + n + 1 ≤ idx + n) := by omega
      have h2 : idx < idx + n + 1 ∧ idx + n + 1 ≤ idx + (n + 1) := by omega
      have h3 : idx + n + 1 < elements.length := by omega
      have h4 : idx + n < elements.length := by omega
      simp [h1, h2, h3, h4]
    · by_cases hc : idx < j ∧ j ≤ idx + n
      · have hc' : idx < j ∧ j ≤ idx + (n + 1) := by omega
        have : ¬ (idx + n + 1 = j - 1) := by omega
        simp [hc, hc', this]
      · have hc' : ¬ (idx < j ∧ j ≤ idx + (n + 1)) := by omega
        have : ¬ (idx + n + 1 = j) := by omega
        simp [hc, hc', this]

theorem removeShift_getElem? (n : Nat) : ∀ (elements : List Value) (s j : Nat),
    s + n < elements.length →
    (removeShift elements (s : Int) n)[j]? =
      if s ≤ j ∧ j < s + n then elements[j + 1]? else elements[j]? := by
  induction n with
  | zero =>
    intro elements s j _
    have : ¬ (s ≤ j ∧ j < s + 0) := by omega
    rw [if_neg this]
    rfl
  | succ n ih =>
    intro elements s j h
    have e1 : ((s : Int) + 1).toNat = s + 1 := by omega
    have e2 : ((s : Int) + 1) = ((s + 1 : Nat) : Int) := by omega
    simp only [removeShift, e1, Int.toNat_ofNat]
    rw [e2, ih _ (s + 1) j (by simp; omega)]
    rw [List.getD_eq_getElem _ _ (by omega : s + 1 < elements.length)]
    simp only [List.getElem?_set]
    by_cases hj : j = s
    · subst hj
      have h1 : ¬ (j + 1 ≤ j ∧ j < j + 1 + n) := by omega
      have h2 : (j ≤ j ∧ j < j + (n + 1)) := by omega
      have h3 : j < elements.length := by omega
      simp [h1, h2, h3]
    · by_cases hc : s + 1 ≤ j ∧ j < s + 1 + n
      · have hc' : s ≤ j ∧ j < s + (n + 1) := by omega
        have : ¬ (s = j + 1) := by omega
        simp [hc, hc', this]
      · have hc' : ¬ (s ≤ j ∧ j < s + (n + 1)) := by omega
        have : ¬ (s = j) := by omega
        simp [hc, hc', this]

/-! ## Index validation on whole numbers -/

theorem Double.toInt_ofInt (i : Int) : (Double.ofInt i).toInt = i := by
  simp [Double.ofInt, Double.toInt]

theorem Double.ofInt_ne (a b : Int) : (Double.ofInt a).ne (Double.ofInt b) = decide (a ≠ b) := by
  simp [Double.ofInt, Double.ne]

theorem Double.ofInt_lt (a b : Int) : (Double.ofInt a).lt (Double.ofInt b) = decide (a < b) := by
  simp [Double.ofInt, Double.lt]

theorem Double.ofInt_ge (a b : Int) : (Double.ofInt a).ge (Double.ofInt b) = decide (b ≤ a) := by
  simp [Double.ofInt, Double.ge]

theorem Double.ofInt_add (a b : Int) :
    (Double.ofInt a).add (Double.ofInt b) = Double.ofInt (a + b) := by
  simp [Double.ofInt, Double.add]

theorem validateIndex_ofInt (i count : Int) :
    validateIndex (Value.ofInt i) count =
      if 0 ≤ i then (if i < count then i else -1)
      else (if 0 ≤ count + i then count + i else -1) := by
  unfold validateIndex Value.ofInt
  simp only [Double.toInt_ofInt, Double.ofInt_ne, Double.ofInt_lt]
  by_cases hi : i < 0
  · simp only [hi, decide_True, if_true, Double.ofInt_add, Double.ofInt_lt, Double.ofInt_ge,
      Double.toInt_ofInt]
    by_cases hc : 0 ≤ count + i
    · have h1 : ¬ (count + i < 0) := by omega
      have h2 : ¬ (count ≤ count + i) := by omega
      have h3 : ¬ (0 ≤ i) := by omega
      simp [h1, h2, h3, hc]
    · have h1 : (count + i < 0) := by omega
      have h3 : ¬ (0 ≤ i) := by omega
      simp [h1, h3, hc]
  · simp only [hi, decide_False, Double.ofInt_lt, Double.ofInt_ge, Double.toInt_ofInt]
    have h3 : 0 ≤ i := by omega
    by_cases hc : i < count
    · have h2 : ¬ (count ≤ i) := by omega
      simp [h2, h3, hc, hi, Double.ofInt_lt, Double.ofInt_ge, Double.toInt_ofInt]
    · have h2 : (count ≤ i) := by omega
      simp [h2, h3, hc, hi, Double.ofInt_lt, Double.ofInt_ge, Double.toInt_ofInt]

theorem validateIndex_not_whole (index : Value) (count : Int)
    (h : ¬ ∃ i : Int, index = Value.ofInt i) : validateIndex index count = -1 := by
  cases index with
  | num d =>
    cases d with
    | finite q =>
      have hq : ∀ i : Int, q ≠ (i : ℚ) := by
        intro i hqi
        exact h ⟨i, by simp [Value.ofInt, Double.ofInt, hqi]⟩
      simp [validateIndex, Double.ne, Double.ofInt, hq]
    | nan => simp [validateIndex, Double.ne, Double.ofInt]
    | inf b => simp [validateIndex, Double.ne, Double.ofInt]
  | _ => rfl

/-! ## Growth -/

/-- The capacity `ensureListCapacity` leaves behind when asked for one more slot than a
list with `0 ≤ count ≤ capacity` uses. -/
theorem ensureListCapacity_spec (l : ObjList) (h : l.WF) :
    (ensureListCapacity l (l.count + 1)).1.count = l.count ∧
    l.count + 1 ≤ (ensureListCapacity l (l.count + 1)).1.capacity ∧
    (ensureListCapacity l (l.count + 1)).1.capacity ≤
      ((ensureListCapacity l (l.count + 1)).1.elements.length : Int) ∧
    (∀ j : Nat, (j : Int) < l.count →
      (ensureListCapacity l (l.count + 1)).1.elements[j]? = l.elements[j]?) ∧
    ((ensureListCapacity l (l.count + 1)).1.capacity = l.capacity ∨
      (l.capacity = l.count ∧
        (ensureListCapacity l (l.count + 1)).1.capacity =
          if l.capacity * 2 < 16 then 16 else l.capacity * 2)) := by
  obtain ⟨⟨h0, h1⟩, h2⟩ := h
  unfold ensureListCapacity
  by_cases hc : l.capacity ≥ l.count + 1
  · rw [if_pos hc]
    refine ⟨rfl, hc, h2, fun _ _ => rfl, Or.inl rfl⟩
  · rw [if_neg hc]
    have e1 : LIST_GROW_FACTOR = 2 := rfl
    have e2 : LIST_MIN_CAPACITY = 16 := rfl
    rw [e1, e2]
    dsimp only
    refine ⟨rfl, ?_, ?_, ?_, Or.inr ⟨by omega, rfl⟩⟩
    · split <;> omega
    · rw [wrenReallocate_length]
      split <;> omega
    · intro j hj
      apply wrenReallocate_getElem?
      · split <;> omega
      · omega

/-! ## The elements after a shift -/

theorem take_eq_of_getElem? (a b : List Value) (c : Nat)
    (h : ∀ j : Nat, j < c → a[j]? = b[j]?) : a.take c = b.take c := by
  apply List.ext_getElem?
  intro j
  simp only [List.getElem?_take]
  split
  · exact h j (by assumption)
  · rfl

theorem insertShift_items (e : List Value) (c k : Nat) (v : Value) (hk : k ≤ c)
    (hc : c < e.length) :
    ((insertShift e (k : Int) (c - k)).set k v).take (c + 1) =
      (e.take c).take k ++ v :: (e.take c).drop k := by
  apply List.ext_getElem?
  intro j
  have hlen : ((e.take c).take k).length = k := by simp; omega
  rw [List.getElem?_take, List.getElem?_set, insertShift_getElem? _ _ _ _ (by omega),
    List.getElem?_append, hlen]
  have hsl : (insertShift e (k : Int) (c - k)).length = e.length := by
    have : ∀ (n : Nat) (e : List Value), (insertShift e (k : Int) n).length = e.length := by
      intro n
      induction n with
      | zero => intro e; rfl
      | succ n ih => intro e; simp [insertShift, ih]
    exact this _ _
  rw [hsl]
  by_cases h1 : j < k
  · have h2 : j < c + 1 := by omega
    have h3 : ¬ (k = j) := by omega
    have h4 : ¬ (k < j ∧ j ≤ k + (c - k)) := by omega
    have h5 : j < c := by omega
    simp [h1, h2, h3, h4, h5, List.getElem?_take]
  · by_cases h2 : j = k
    · subst h2
      have h3 : j < c + 1 := by omega
      have h4 : j < e.length := by omega
      simp [h3, h4]
    · have h3 : ¬ (k = j) := by omega
      by_cases h4 : j < c + 1
      · have h5 : k < j ∧ j ≤ k + (c - k) := by omega
        obtain ⟨m, hm⟩ : ∃ m, j - k = m + 1 := ⟨j - k - 1, by omega⟩
        have h6 : k + m = j - 1 := by omega
        have h7 : j - 1 < c := by omega
        simp [h1, h3, h4, h5, hm, List.getElem?_drop, List.getElem?_take, h6, h7]
      · obtain ⟨m, hm⟩ : ∃ m, j - k = m + 1 := ⟨j - k - 1, by omega⟩
        have h6 : k + m = j - 1 := by omega
        have h7 : ¬ (j - 1 < c) := by omega
        simp [h1, h3, h4, hm, List.getElem?_drop, List.getElem?_take, h6, h7]

theorem removeShift_items (e : List Value) (c k : Nat) (hk : k < c) (hc : c ≤ e.length) :
    (removeShift e (k : Int) (c - 1 - k)).take (c - 1) =
      (e.take c).take k ++ (e.take c).drop (k + 1) := by
  apply List.ext_getElem?
  intro j
  have hlen : ((e.take c).take k).length = k := by simp; omega
  rw [List.getElem?_take, removeShift_getElem? _ _ _ _ (by omega), List.getElem?_append, hlen]
  by_cases h1 : j < k
  · have h2 : j < c - 1 := by omega
    have h4 : ¬ (k ≤ j ∧ j < k + (c - 1 - k)) := by omega
    have h5 : j < c := by omega
    simp [h1, h2, h4, h5, List.getElem?_take]
  · by_cases h4 : j < c - 1
    · have h5 : k ≤ j ∧ j < k + (c - 1 - k) := by omega
      have h6 : k + 1 + (j - k) = j + 1 := by omega
      have h7 : j + 1 < c := by omega
      simp [h1, h4, h5, List.getElem?_drop, List.getElem?_take, h6, h7]
    · have h6 : k + 1 + (j - k) = j + 1 := by omega
      have h7 : ¬ (j + 1 < c) := by omega
      simp [h1, h4, List.getElem?_drop, List.getElem?_take, h6, h7]

/-! ## The list operations on a well-formed list -/

theorem insertShift_length (index : Int) (n : Nat) :
    ∀ e : List Value, (insertShift e index n).length = e.length := by
  induction n with
  | zero => intro e; rfl
  | succ n ih => intro e; simp [insertShift, ih]

theorem removeShift_length (n : Nat) :
    ∀ (e : List Value) (i : Int), (removeShift e i n).length = e.length := by
  induction n with
  | zero => intro e i; rfl
  | succ n ih => intro e i; simp [removeShift, ih]

/-- What a successful `list_insert` does, in terms of the validated position `k`. -/
theorem list_insert_valid (l : ObjList) (v index : Value) (k : Nat) (h : l.WF)
    (hv : validateIndex index (l.count + 1) = (k : Int)) (hk : (k : Int) ≤ l.count) :
    (primitive_list_insert l v index).1 = v ∧
    (primitive_list_insert l v index).2.WF ∧
    (primitive_list_insert l v index).2.count = l.count + 1 ∧
    (primitive_list_insert l v index).2.items = l.items.take k ++ v :: l.items.drop k ∧
    (primitive_list_insert l v index).2.capacity =
      (ensureListCapacity l (l.count + 1)).1.capacity := by
  obtain ⟨e1, e2, e3, e4, _⟩ := ensureListCapacity_spec l h
  obtain ⟨⟨h0, h1⟩, h2⟩ := h
  have hne : ¬ ((k : Int) = -1) := by omega
  have hres : primitive_list_insert l v index =
      (v, { elements := (insertShift (ensureListCapacity l (l.count + 1)).1.elements (k : Int)
              (l.count - (k : Int)).toNat).set k v,
            count := l.count + 1,
            capacity := (ensureListCapacity l (l.count + 1)).1.capacity,
            buffer := (ensureListCapacity l (l.count + 1)).1.buffer.use }) := by
    unfold primitive_list_insert
    simp only [hv, hne, if_false, e1, Int.toNat_ofNat]
  rw [hres]
  obtain ⟨c, hc⟩ : ∃ c : Nat, l.count = (c : Int) := ⟨l.count.toNat, by omega⟩
  have hn : (l.count - (k : Int)).toNat = c - k := by omega
  have e5 : (l.count + 1).toNat = c + 1 := by omega
  have e6 : l.count.toNat = c := by omega
  refine ⟨rfl, ⟨⟨?_, ?_⟩, ?_⟩, rfl, ?_, rfl⟩
  · show 0 ≤ l.count + 1
    omega
  · show l.count + 1 ≤ (ensureListCapacity l (l.count + 1)).1.capacity
    exact e2
  · simp only [List.length_set, insertShift_length]; exact e3
  · unfold ObjList.items
    simp only [hn, e5, e6]
    rw [insertShift_items _ c k v (by omega) (by omega)]
    rw [take_eq_of_getElem? _ l.elements c (fun j hj => e4 j (by omega))]

/-- What `list_add` does to a well-formed list. -/
theorem list_add_spec (l : ObjList) (v : Value) (h : l.WF) :
    (primitive_list_add l v).2.WF ∧
    (primitive_list_add l v).2.count = l.count + 1 ∧
    (primitive_list_add l v).2.items = l.items ++ [v] ∧
    (primitive_list_add l v).2.capacity = (ensureListCapacity l (l.count + 1)).1.capacity := by
  obtain ⟨e1, e2, e3, e4, _⟩ := ensureListCapacity_spec l h
  obtain ⟨⟨h0, h1⟩, h2⟩ := h
  have hres : primitive_list_add l v =
      (v, { elements := (ensureListCapacity l (l.count + 1)).1.elements.set l.count.toNat v,
            count := l.count + 1,
            capacity := (ensureListCapacity l (l.count + 1)).1.capacity,
            buffer := (ensureListCapacity l (l.count + 1)).1.buffer.use }) := by
    unfold primitive_list_add
    simp only [e1]
  rw [hres]
  obtain ⟨c, hc⟩ : ∃ c : Nat, l.count = (c : Int) := ⟨l.count.toNat, by omega⟩
  have e5 : (l.count + 1).toNat = c + 1 := by omega
  have e6 : l.count.toNat = c := by omega
  refine ⟨⟨⟨?_, ?_⟩, ?_⟩, rfl, ?_, rfl⟩
  · show 0 ≤ l.count + 1
    omega
  · show l.count + 1 ≤ (ensureListCapacity l (l.count + 1)).1.capacity
    exact e2
  · simp only [List.length_set]; exact e3
  · unfold ObjList.items
    simp only [e5, e6]
    have e7 := insertShift_items (ensureListCapacity l (l.count + 1)).1.elements c c v
      (le_refl c) (by omega)
    simp only [Nat.sub_self, insertShift] at e7
    rw [e7, take_eq_of_getElem? _ l.elements c (fun j hj => e4 j (by omega))]
    have hle : (List.take c l.elements).length ≤ c := by
      rw [List.length_take]; exact Nat.min_le_left _ _
    rw [List.take_of_length_le hle, List.drop_of_length_le hle]

/-- What a successful `list_removeAt` does, in terms of the validated position `k`. -/
theorem list_removeAt_valid (l : ObjList) (index : Value) (k : Nat) (h : l.WF)
    (hv : validateIndex index l.count = (k : Int)) (hk : (k : Int) < l.count) :
    l.items[k]? = some (primitive_list_removeAt l index).1 ∧
    (primitive_list_removeAt l index).2.WF ∧
    (primitive_list_removeAt l index).2.count = l.count - 1 ∧
    (primitive_list_removeAt l index).2.items = l.items.take k ++ l.items.drop (k + 1) ∧
    (primitive_list_removeAt l index).2.capacity =
      if l.capacity / 2 ≥ l.count then l.capacity / 2 else l.capacity := by
  obtain ⟨⟨h0, h1⟩, h2⟩ := h
  have hne : ¬ ((k : Int) = -1) := by omega
  have hdiv : Int.tdiv l.capacity LIST_GROW_FACTOR = l.capacity / 2 :=
    Int.tdiv_eq_ediv (by omega) (by decide)
  obtain ⟨c, hc⟩ : ∃ c : Nat, l.count = (c : Int) := ⟨l.count.toNat, by omega⟩
  have hn : (l.count - 1 - (k : Int)).toNat = c - 1 - k := by omega
  have hc1 : (l.count - 1).toNat = c - 1 := by omega
  have e6 : l.count.toNat = c := by omega
  have hkc : k < c := by omega
  have hcl : c ≤ l.elements.length := by omega
  have hitems := removeShift_items l.elements c k hkc hcl
  by_cases hs : l.capacity / 2 ≥ l.count
  · have hres : primitive_list_removeAt l index =
        (l.elements.getD k Value.null,
          { elements := removeShift l.elements (k : Int) (c - 1 - k),
            count := l.count - 1, capacity := l.capacity / 2,
            buffer := l.buffer.use.drop }) := by
      unfold primitive_list_removeAt
      simp only [hv, hne, if_false, hdiv, hn, Int.toNat_ofNat, hs, if_true]
    rw [hres, if_pos hs]
    refine ⟨?_, ⟨⟨?_, ?_⟩, ?_⟩, rfl, ?_, rfl⟩
    · unfold ObjList.items
      rw [e6, List.getElem?_take, if_pos hkc,
        List.getD_eq_getElem _ _ (by omega : k < l.elements.length)]
      simp
    · show 0 ≤ l.count - 1
      omega
    · show l.count - 1 ≤ l.capacity / 2
      omega
    · simp only [removeShift_length]; omega
    · unfold ObjList.items
      simp only [hc1, e6]
      exact hitems
  · have hres : primitive_list_removeAt l index =
        (l.elements.getD k Value.null,
          { elements := removeShift l.elements (k : Int) (c - 1 - k),
            count := l.count - 1, capacity := l.capacity,
            buffer := l.buffer.use }) := by
      unfold primitive_list_removeAt
      simp only [hv, hne, if_false, hdiv, hn, Int.toNat_ofNat, hs]
    rw [hres, if_neg hs]
    refine ⟨?_, ⟨⟨?_, ?_⟩, ?_⟩, rfl, ?_, rfl⟩
    · unfold ObjList.items
      rw [e6, List.getElem?_take, if_pos hkc,
        List.getD_eq_getElem _ _ (by omega : k < l.elements.length)]
      simp
    · show 0 ≤ l.count - 1
      omega
    · show l.count - 1 ≤ l.capacity
      omega
    · simp only [removeShift_length]; exact h2
    · unfold ObjList.items
      simp only [hc1, e6]
      exact hitems

theorem validateIndex_range (index : Value) (count : Int) :
    validateIndex index count = -1 ∨
      (0 ≤ validateIndex index count ∧ validateIndex index count < count) := by
  by_cases h : ∃ i : Int, index = Value.ofInt i
  · obtain ⟨i, rfl⟩ := h
    rw [validateIndex_ofInt]
    split <;> split <;> omega
  · exact Or.inl (validateIndex_not_whole index count h)

theorem Value.ofInt_injective (i j : Int) (h : Value.ofInt i = Value.ofInt j) : i = j := by
  simp only [Value.ofInt, Double.ofInt, Value.num.injEq, Double.finite.injEq] at h
  exact_mod_cast h

theorem addAll_cons (l : ObjList) (v : Value) (vs : List Value) :
    addAll l (v :: vs) = addAll (primitive_list_add l v).2 vs := rfl

/-- The capacities `ensureListCapacity` produces from 0: the floor 16 doubled some number
of times. -/
theorem addAll_spec (vs : List Value) : ∀ l : ObjList, l.WF →
    (l.capacity = 0 ∨ ∃ k : Nat, l.capacity = 16 * 2 ^ k) →
    (addAll l vs).WF ∧ (addAll l vs).count = l.count + vs.length ∧
    (addAll l vs).items = l.items ++ vs ∧
    ((addAll l vs).capacity = 0 ∨ ∃ k : Nat, (addAll l vs).capacity = 16 * 2 ^ k) := by
  induction vs with
  | nil =>
    intro l h hc
    exact ⟨h, by simp [addAll], by simp [addAll], hc⟩
  | cons v vs ih =>
    intro l h hc
    obtain ⟨a1, a2, a3, a4⟩ := list_add_spec l v h
    obtain ⟨_, _, _, _, e5⟩ := ensureListCapacity_spec l h
    have hc' : (primitive_list_add l v).2.capacity = 0 ∨
        ∃ k : Nat, (primitive_list_add l v).2.capacity = 16 * 2 ^ k := by
      rw [a4]
      rcases e5 with e5 | ⟨_, e5⟩
      · rw [e5]; exact hc
      · rw [e5]
        rcases hc with hc | ⟨k, hk⟩
        · right; exact ⟨0, by rw [hc]; rfl⟩
        · right
          refine ⟨k + 1, ?_⟩
          have hpos : (0 : Int) < 2 ^ k := by positivity
          rw [hk, if_neg (by linarith), pow_succ]
          ring
    obtain ⟨b1, b2, b3, b4⟩ := ih _ a1 hc'
    rw [addAll_cons]
    refine ⟨b1, ?_, ?_, b4⟩
    · rw [b2, a2]; simp only [List.length_cons]; push_cast; ring
    · rw [b3, a3]; simp

theorem ensureListCapacity_fields (l : ObjList) (h : l.Inv) :
    (ensureListCapacity l (l.count + 1)).1.count = l.count ∧
    l.count + 1 ≤ (ensureListCapacity l (l.count + 1)).1.capacity := by
  obtain ⟨h0, h1⟩ := h
  unfold ensureListCapacity
  by_cases hc : l.capacity ≥ l.count + 1
  · rw [if_pos hc]
    exact ⟨rfl, hc⟩
  · rw [if_neg hc]
    have e1 : LIST_GROW_FACTOR = 2 := rfl
    have e2 : LIST_MIN_CAPACITY = 16 := rfl
    rw [e1, e2]
    dsimp only
    refine ⟨rfl, ?_⟩
    split <;> omega

theorem list_removeAt_invalid (l : ObjList) (index : Value)
    (hv : validateIndex index l.count = -1) :
    primitive_list_removeAt l index = (Value.null, l) := by
  unfold primitive_list_removeAt
  simp only [hv, if_true]

theorem list_insert_invalid (l : ObjList) (v index : Value)
    (hv : validateIndex index (l.count + 1) = -1) :
    primitive_list_insert l v index = (Value.null, l) := by
  unfold primitive_list_insert
  simp only [hv, if_true]

/-- Half of a power of two that is at least 2 is a power of two. -/
theorem half_two_pow (c : Int) (k : Nat) (hc : c = 2 ^ k) (h2 : 1 ≤ c / 2) :
    ∃ j : Nat, c / 2 = 2 ^ j ∧ c = 2 * 2 ^ j := by
  cases k with
  | zero => simp at hc; subst hc; simp at h2
  | succ k =>
    refine ⟨k, ?_, ?_⟩
    · rw [hc, pow_succ]; simp
    · rw [hc, pow_succ]; ring

/-- A capacity above 1 that is a power of two is even. -/
theorem two_pow_even (c : Int) (k : Nat) (hc : c = 2 ^ k) (h2 : 2 ≤ c) :
    ∃ j : Nat, c = 2 * 2 ^ j := by
  cases k with
  | zero => simp at hc; omega
  | succ k => exact ⟨k, by rw [hc, pow_succ]; ring⟩

/-- The slack bound of a list grown by `list_add` only: the capacity is at most the floor
or at most twice the count. -/
theorem addAll_slack (vs : List Value) : ∀ l : ObjList, l.WF →
    (l.capacity ≤ 16 ∨ l.capacity ≤ 2 * l.count) →
    ((addAll l vs).capacity ≤ 16 ∨ (addAll l vs).capacity ≤ 2 * (addAll l vs).count) := by
  induction vs with
  | nil => intro l _ hs; exact hs
  | cons v vs ih =>
    intro l h hs
    obtain ⟨a1, a2, _, a4⟩ := list_add_spec l v h
    obtain ⟨_, _, _, _, e5⟩ := ensureListCapacity_spec l h
    obtain ⟨⟨h0, h1⟩, _⟩ := h
    rw [addAll_cons]
    apply ih _ a1
    rw [a4, a2]
    rcases e5 with e5 | ⟨e6, e5⟩
    · rw [e5]; omega
    · rw [e5]; split <;> omega

theorem removeAt_shrinkInv (l : ObjList) (index : Value) (h : ShrinkInv l)
    (hv : validateIndex index l.count ≠ -1) : ShrinkInv (primitive_list_removeAt l index).2 := by
  obtain ⟨hwf, ⟨k, hk⟩, hs, _⟩ := h
  have hr : 0 ≤ validateIndex index l.count ∧ validateIndex index l.count < l.count := by
    rcases validateIndex_range index l.count with hr | hr
    · exact absurd hr hv
    · exact hr
  have hv' : validateIndex index l.count = (((validateIndex index l.count).toNat : Nat) : Int) := by
    omega
  obtain ⟨_, a2, a3, _, a5⟩ :=
    list_removeAt_valid l index (validateIndex index l.count).toNat hwf hv' (by omega)
  obtain ⟨⟨h0, h1⟩, _⟩ := hwf
  refine ⟨a2, ?_, ?_, ?_⟩
  · rw [a5]
    split
    · obtain ⟨j, hj, _⟩ := half_two_pow l.capacity k hk (by omega)
      exact ⟨j, hj⟩
    · exact ⟨k, hk⟩
  · rw [a5, a3]
    split
    · omega
    · by_cases h16 : l.capacity ≤ 16
      · exact Or.inl h16
      · obtain ⟨j, hj⟩ := two_pow_even l.capacity k hk (by omega)
        right
        omega
  · rw [a5, a3]
    intro hz
    split
    · omega
    · omega

theorem removeAll_shrinkInv (indices : List Value) : ∀ l : ObjList, ShrinkInv l →
    validRemovals l indices = true → ShrinkInv (removeAll l indices) := by
  induction indices with
  | nil => intro l h _; exact h
  | cons i rest ih =>
    intro l h hvalid
    simp only [validRemovals, Bool.and_eq_true, bne_iff_ne, ne_eq] at hvalid
    exact ih _ (removeAt_shrinkInv l i h hvalid.1) hvalid.2

theorem runOps_append (l : ObjList) (ops : List ListOp) (op : ListOp) :
    runOps l (ops ++ [op]) = op.apply (runOps l ops) := by
  simp [runOps, List.foldl_append]

/-- One call keeps the list well-formed and its capacity 0 or a power of two; a call
other than `list_removeAt` also keeps it 0 or at least 16. -/
theorem apply_capacity (op : ListOp) (l : ObjList) (hwf : l.WF)
    (hp : l.capacity = 0 ∨ ∃ k : Nat, l.capacity = 2 ^ k) :
    (op.apply l).WF ∧
    ((op.apply l).capacity = 0 ∨ ∃ k : Nat, (op.apply l).capacity = 2 ^ k) ∧
    (op.isRemoveAt = false → (l.capacity = 0 ∨ 16 ≤ l.capacity) →
      ((op.apply l).capacity = 0 ∨ 16 ≤ (op.apply l).capacity)) := by
  obtain ⟨_, _, _, _, e5⟩ := ensureListCapacity_spec l hwf
  have hgrow : ((ensureListCapacity l (l.count + 1)).1.capacity = 0 ∨
        ∃ k : Nat, (ensureListCapacity l (l.count + 1)).1.capacity = 2 ^ k) ∧
      ((l.capacity = 0 ∨ 16 ≤ l.capacity) →
        ((ensureListCapacity l (l.count + 1)).1.capacity = 0 ∨
          16 ≤ (ensureListCapacity l (l.count + 1)).1.capacity)) := by
    rcases e5 with e5 | ⟨_, e5⟩
    · rw [e5]; exact ⟨hp, id⟩
    · rw [e5]
      refine ⟨Or.inr ?_, fun _ => Or.inr (by split <;> omega)⟩
      split
      · exact ⟨4, by norm_num⟩
      · rcases hp with hp | ⟨k, hk⟩
        · omega
        · exact ⟨k + 1, by rw [hk, pow_succ]⟩
  cases op with
  | add v =>
    obtain ⟨a1, _, _, a4⟩ := list_add_spec l v hwf
    simp only [ListOp.apply]
    rw [a4]
    exact ⟨a1, hgrow.1, fun _ => hgrow.2⟩
  | insert v index =>
    simp only [ListOp.apply]
    rcases validateIndex_range index (l.count + 1) with hr | hr
    · rw [list_insert_invalid l v index hr]
      exact ⟨hwf, hp, fun _ h => h⟩
    · have hv : validateIndex index (l.count + 1) =
          (((validateIndex index (l.count + 1)).toNat : Nat) : Int) := by omega
      obtain ⟨_, a2, _, _, a5⟩ :=
        list_insert_valid l v index (validateIndex index (l.count + 1)).toNat hwf hv (by omega)
      rw [a5]
      exact ⟨a2, hgrow.1, fun _ => hgrow.2⟩
  | removeAt index =>
    simp only [ListOp.apply]
    refine ⟨?_, ?_, fun h => by simp [ListOp.isRemoveAt] at h⟩
    · rcases validateIndex_range index l.count with hr | hr
      · rw [list_removeAt_invalid l index hr]; exact hwf
      · have hv : validateIndex index l.count =
            (((validateIndex index l.count).toNat : Nat) : Int) := by omega
        exact (list_removeAt_valid l index _ hwf hv (by omega)).2.1
    · rcases validateIndex_range index l.count with hr | hr
      · rw [list_removeAt_invalid l index hr]; exact hp
      · have hv : validateIndex index l.count =
            (((validateIndex index l.count).toNat : Nat) : Int) := by omega
        obtain ⟨_, _, _, _, a5⟩ := list_removeAt_valid l index _ hwf hv (by omega)
        obtain ⟨⟨h0, h1⟩, _⟩ := hwf
        rw [a5]
        split
        · rcases hp with hp | ⟨k, hk⟩
          · omega
          · obtain ⟨j, hj, _⟩ := half_two_pow l.capacity k hk (by omega)
            exact Or.inr ⟨j, hj⟩
        · exact hp
  | clear =>
    simp only [ListOp.apply]
    refine ⟨?_, Or.inl rfl, fun _ _ => Or.inl rfl⟩
    refine ⟨⟨le_refl _, le_refl _⟩, ?_⟩
    show (0 : Int) ≤ (l.elements.length : Int)
    omega

theorem runOps_capacity (ops : List ListOp) :
    (runOps ObjList.empty ops).WF ∧
    ((runOps ObjList.empty ops).capacity = 0 ∨
      ∃ k : Nat, (runOps ObjList.empty ops).capacity = 2 ^ k) ∧
    ((∀ op ∈ ops, op.isRemoveAt = false) →
      ((runOps ObjList.empty ops).capacity = 0 ∨ 16 ≤ (runOps ObjList.empty ops).capacity)) := by
  induction ops using List.reverseRecOn with
  | nil => exact ⟨by decide, Or.inl rfl, fun _ => Or.inl rfl⟩
  | append_singleton ops op ih =>
    obtain ⟨i1, i2, i3⟩ := ih
    obtain ⟨a1, a2, a3⟩ := apply_capacity op _ i1 i2
    rw [runOps_append]
    refine ⟨a1, a2, fun hall => ?_⟩
    exact a3 (hall op (by simp)) (i3 (fun o ho => hall o (by simp [ho])))

/-! ## Invalid indices, reallocation, strings and the bootstrap -/

/-- An index that is not a whole number in `[-count, count)` fails validation. -/
theorem validateIndex_out_of_range (index : Value) (count : Int)
    (h : ¬ ∃ i : Int, index = Value.ofInt i ∧ -count ≤ i ∧ i < count) :
    validateIndex index count = -1 := by
  by_cases hw : ∃ i : Int, index = Value.ofInt i
  · obtain ⟨i, rfl⟩ := hw
    have hout : ¬ (-count ≤ i ∧ i < count) := fun hr => h ⟨i, rfl, hr⟩
    rw [validateIndex_ofInt]
    split <;> split <;> omega
  · exact validateIndex_not_whole index count hw

theorem list_subscript_invalid (l : ObjList) (index : Value)
    (hv : validateIndex index l.count = -1) :
    primitive_list_subscript l index = Value.null := by
  unfold primitive_list_subscript
  simp only [hv, if_true]

/-- The call of `wrenReallocate` that `ensureListCapacity` makes: none when the capacity
suffices, and otherwise one whose old size is twice the capacity the list has. -/
theorem ensureListCapacity_call (l : ObjList) (count : Int) :
    (l.capacity ≥ count → ensureListCapacity l count = (l, none)) ∧
    (l.capacity < count →
      (ensureListCapacity l count).2 =
        some ⟨l.capacity * 2, if l.capacity * 2 < 16 then 16 else l.capacity * 2⟩ ∧
      (ensureListCapacity l count).1.capacity =
        if l.capacity * 2 < 16 then 16 else l.capacity * 2) := by
  refine ⟨fun h => ?_, fun h => ?_⟩
  · unfold ensureListCapacity
    rw [if_pos h]
  · have h' : ¬ (l.capacity ≥ count) := by omega
    unfold ensureListCapacity
    rw [if_neg h']
    exact ⟨rfl, rfl⟩

/-- The sentinel the bootstrap stores is an instance: no number, boolean or string. -/
theorem wrenLoadCore_unsupported (vm0 : WrenVM) :
    ∃ a : Nat, (wrenLoadCore vm0).unsupported = Value.obj (Obj.inst a) := ⟨_, rfl⟩

theorem Double.ne_eq_not_eq (a b : Double) : a.ne b = !a.eq b := by
  cases a <;> cases b <;> simp [Double.ne, Double.eq, bne]

theorem cstring_append_nul (a rest : List Char) (ha : NUL ∉ a) :
    cstring (a ++ NUL :: rest) = a := by
  induction a with
  | nil => simp [cstring]
  | cons c cs ih =>
    have hc : c ≠ NUL := fun h => ha (by simp [h])
    have hcs : NUL ∉ cs := fun h => ha (by simp [h])
    have := ih hcs
    simp only [cstring] at this ⊢
    have hb : (c != NUL) = true := by simp [hc]
    rw [List.cons_append, List.takeWhile_cons, hb, this]
    rfl

theorem writeBytes_spec (bytes : List Char) :
    ∀ (pre mid post : List Char), mid.length = bytes.length →
      writeBytes (pre ++ mid ++ post) pre.length bytes = pre ++ bytes ++ post := by
  induction bytes with
  | nil =>
    intro pre mid post h
    have : mid = [] := List.length_eq_zero.mp h
    simp [writeBytes, this]
  | cons c cs ih =>
    intro pre mid post h
    match mid, h with
    | m :: mid, h =>
      have h1 : (pre ++ (m :: mid) ++ post).set pre.length c = (pre ++ [c]) ++ mid ++ post := by
        simp [List.set_append]
      have h2 : pre.length + 1 = (pre ++ [c]).length := by simp
      rw [writeBytes, h1, h2, ih (pre ++ [c]) mid post (by simpa using h)]
      simp

theorem cstring_getElem? (s : List Char) (k : Nat) (hk : k < strlen s) :
    (cstring s)[k]? = some (s.getD k NUL) ∧ s.getD k NUL ≠ NUL := by
  have hs : s = cstring s ++ s.dropWhile (fun c => c != NUL) :=
    (List.takeWhile_append_dropWhile _ s).symm
  have hk' : k < (cstring s).length := hk
  have hget : s.getD k NUL = (cstring s)[k] := by
    rw [List.getD_eq_getElem?_getD]
    conv_lhs => rw [hs]
    rw [List.getElem?_append_left hk', List.getElem?_eq_getElem hk']
    rfl
  refine ⟨by rw [hget, List.getElem?_eq_getElem hk'], ?_⟩
  rw [hget]
  have hmem : (cstring s)[k] ∈ cstring s := List.getElem_mem hk'
  have := List.mem_takeWhile_imp hmem
  simpa using this

theorem string_subscript_ofInt (uninit : Nat → Char) (s : List Char) (i : Int) :
    primitive_string_subscript uninit (Value.obj (Obj.str s)) (Value.ofInt i) =
      if 0 ≤ i then
        (if i < (strlen s : Nat) then
          Value.obj (Obj.str [s.getD i.toNat NUL, NUL, uninit 2])
        else Value.null)
      else
        (if 0 ≤ (strlen s : Nat) + i then
          Value.obj (Obj.str [s.getD ((strlen s : Nat) + i).toNat NUL, NUL, uninit 2])
        else Value.null) := by
  have hnum : IS_NUM (Value.ofInt i) = true := rfl
  have hval : AS_NUM (Value.ofInt i) = Double.ofInt i := rfl
  have hbuf : AS_CSTRING (wrenNewString uninit Option.none 2) =
      [uninit 0, uninit 1, uninit 2] := rfl
  have hne : (Double.ofInt i).ne (Double.ofInt i) = false := by
    rw [Double.ofInt_ne]; simp
  have hs : AS_CSTRING (Value.obj (Obj.str s)) = s := rfl
  unfold primitive_string_subscript
  simp only [hnum, hval, Double.toInt_ofInt, hne, hbuf, hs, Bool.not_true,
    Bool.false_eq_true, if_false]
  by_cases h0 : 0 ≤ i
  · have h0' : ¬ (i < 0) := by omega
    by_cases h1 : i < (strlen s : Nat)
    · have h2 : ¬ (i ≥ (strlen s : Nat)) := by omega
      simp only [h0, h0', h1, h2, if_true, if_false, or_self]
      rfl
    · have h2 : i ≥ (strlen s : Nat) := by omega
      simp only [h0, h0', h1, h2, if_true, if_false, or_true]
  · have h0' : (i < 0) := by omega
    by_cases h1 : 0 ≤ (strlen s : Nat) + i
    · have h2 : ¬ ((strlen s : Nat) + i < 0) := by omega
      have h3 : ¬ ((strlen s : Nat) + i ≥ (strlen s : Nat)) := by omega
      simp only [h0, h0', h1, h2, h3, if_true, if_false, or_self]
      rfl
    · have h2 : ((strlen s : Nat) + i < 0) := by omega
      simp only [h0, h0', h1, h2, if_true, if_false, true_or]

theorem string_subscript_not_whole (uninit : Nat → Char) (args0 index : Value)
    (h : ¬ ∃ i : Int, index = Value.ofInt i) :
    primitive_string_subscript uninit args0 index = Value.null := by
  cases index with
  | num d =>
    cases d with
    | finite q =>
      have hq : ∀ i : Int, q ≠ (i : ℚ) := by
        intro i hqi
        exact h ⟨i, by simp [Value.ofInt, Double.ofInt, hqi]⟩
      simp [primitive_string_subscript, IS_NUM, Value.isNum, AS_NUM, Double.ne, Double.ofInt, hq]
    | nan => simp [primitive_string_subscript, IS_NUM, Value.isNum, AS_NUM, Double.ne, Double.ofInt]
    | inf b => simp [primitive_string_subscript, IS_NUM, Value.isNum, AS_NUM, Double.ne, Double.ofInt]
  | _ => rfl

/-! ## The state of the buffer -/

/-- Growth stores the pointer `wrenReallocate` returns: a list built by `list_add` calls
from the empty list has a valid buffer. -/
theorem addAll_buffer (vs : List Value) : ∀ l : ObjList, l.buffer = BufferState.valid →
    (addAll l vs).buffer = BufferState.valid := by
  induction vs with
  | nil => intro l h; exact h
  | cons v vs ih =>
    intro l h
    rw [addAll_cons]
    apply ih
    unfold primitive_list_add ensureListCapacity
    split <;> simp [h, BufferState.use]

/-- The buffer after `list_clear`: the list keeps the pointer to the block it has freed,
and the `list_add` that follows reallocates through that pointer. -/
theorem list_clear_buffer (l : ObjList) (v : Value) (hb : l.buffer = BufferState.valid)
    (hne : l.elements ≠ []) :
    (primitive_list_clear l).2.elements = l.elements ∧
    (primitive_list_clear l).2.buffer = BufferState.stale ∧
    (ensureListCapacity (primitive_list_clear l).2 1).2 = some ⟨0, 16⟩ ∧
    (primitive_list_add (primitive_list_clear l).2 v).2.buffer = BufferState.undefined := by
  have h1 : (primitive_list_clear l).2.buffer = BufferState.stale := by
    simp [primitive_list_clear, hne, hb, BufferState.drop]
  have h2 : (primitive_list_clear l).2.capacity = 0 := rfl
  have h3 : (primitive_list_clear l).2.count = 0 := rfl
  refine ⟨rfl, h1, ?_, ?_⟩
  · unfold ensureListCapacity
    rw [h2]
    rfl
  · unfold primitive_list_add ensureListCapacity
    rw [h3, h2]
    simp [h1, BufferState.use, LIST_GROW_FACTOR, LIST_MIN_CAPACITY]

/-- The buffer after a successful `list_removeAt` from a list with a valid buffer: stale
when the call shrinks, valid when it does not. -/
theorem list_removeAt_buffer (l : ObjList) (index : Value) (k : Nat)
    (hb : l.buffer = BufferState.valid) (hv : validateIndex index l.count = (k : Int)) :
    (primitive_list_removeAt l index).2.buffer =
      if Int.tdiv l.capacity 2 ≥ l.count then BufferState.stale else BufferState.valid := by
  have hne : ¬ ((k : Int) = -1) := by omega
  have e1 : LIST_GROW_FACTOR = 2 := rfl
  unfold primitive_list_removeAt
  simp only [hv, hne, if_false, e1, hb]
  split <;> rfl

/-- A successful `list_removeAt` that does not shrink, from a well-formed list with a
valid buffer: it returns the element at the validated position `k` and leaves the other
elements in their order, the capacity as it was and the buffer valid. -/
theorem list_removeAt_without_shrink (l : ObjList) (index : Value) (k : Nat) (hwf : l.WF)
    (hb : l.buffer = BufferState.valid) (hv : validateIndex index l.count = (k : Int))
    (hs : ¬ Int.tdiv l.capacity 2 ≥ l.count) :
    l.items[k]? = some (primitive_list_removeAt l index).1 ∧
    (primitive_list_removeAt l index).2.count = l.count - 1 ∧
    (primitive_list_removeAt l index).2.items = l.items.take k ++ l.items.drop (k + 1) ∧
    (primitive_list_removeAt l index).2.capacity = l.capacity ∧
    (primitive_list_removeAt l index).2.buffer = BufferState.valid := by
  have hk : (k : Int) < l.count := by
    rcases validateIndex_range index l.count with hr | hr <;> omega
  obtain ⟨a1, _, a3, a4, a5⟩ := list_removeAt_valid l index k hwf hv hk
  have hdiv : Int.tdiv l.capacity 2 = l.capacity / 2 :=
    Int.tdiv_eq_ediv (by have := hwf.1.1; have := hwf.1.2; omega) (by decide)
  refine ⟨a1, a3, a4, ?_, ?_⟩
  · rw [a5, if_neg (by rw [← hdiv]; exact hs)]
  · rw [list_removeAt_buffer l index k hb hv, if_neg hs]

/-! ## The claims -/

/-- Claim C1 (list growth).  Starting from the empty list, after `list_add` has been called
with each of `N ≥ 1` values in turn the count is `N`, the elements are the added values
in the order added, the capacity is at least `N` and is `16 * 2 ^ k` for some `k`; and
every `list_add` returns the value it appended. -/
theorem list_add_growth (values : List Value) (hN : values ≠ []) :
    (addAll ObjList.empty values).count = values.length ∧
    (addAll ObjList.empty values).items = values ∧
    (addAll ObjList.empty values).capacity ≥ values.length ∧
    (∃ k : Nat, (addAll ObjList.empty values).capacity = 16 * 2 ^ k) ∧
    ∀ (l : ObjList) (v : Value), (primitive_list_add l v).1 = v := by
  have hwf : ObjList.empty.WF := by decide
  obtain ⟨⟨⟨b0, b1⟩, _⟩, b2, b3, b4⟩ := addAll_spec values ObjList.empty hwf (Or.inl rfl)
  have hlen : 0 < values.length := List.length_pos.mpr hN
  have hcount : (addAll ObjList.empty values).count = values.length := by
    rw [b2]; show (0 : Int) + _ = _; simp
  refine ⟨hcount, ?_, ?_, ?_, fun _ _ => rfl⟩
  · rw [b3]; rfl
  · rw [← hcount]; exact b1
  · rcases b4 with b4 | b4
    · exfalso; omega
    · exact b4

theorem list_add_growth_witness :
    (addAll ObjList.empty [Value.bool true, Value.null]).count = 2 ∧
    (addAll ObjList.empty [Value.bool true, Value.null]).items = [Value.bool true, Value.null] ∧
    (addAll ObjList.empty [Value.bool true, Value.null]).capacity = 16 := by
  have h := list_add_growth [Value.bool true, Value.null] (by decide)
  exact ⟨h.1, h.2.1, by decide⟩

/-- Claim C2, counterexample.  The one-element list built by one `list_add` has capacity 16;
removing its element with the valid index 0 leaves count 0 and capacity 8, not 0. -/
theorem list_shrink_counterexample :
    validRemovals (addAll ObjList.empty [Value.null]) [Value.ofInt 0] = true ∧
    (removeAll (addAll ObjList.empty [Value.null]) [Value.ofInt 0]).count = 0 ∧
    (removeAll (addAll ObjList.empty [Value.null]) [Value.ofInt 0]).capacity = 8 ∧
    ¬ ((removeAll (addAll ObjList.empty [Value.null]) [Value.ofInt 0]).capacity = 0) := by
  decide

/-- Claim C2, amended.  For a non-empty list built by `list_add` calls from the empty list,
calling `list_removeAt` with valid indices until the count is 0 leaves a capacity that is
a power of two between 1 and 8: `list_removeAt` only ever halves the capacity, and never
brings it to 0. -/
theorem list_shrink_to_empty (values indices : List Value) (hN : values ≠ [])
    (hvalid : validRemovals (addAll ObjList.empty values) indices = true)
    (hempty : (removeAll (addAll ObjList.empty values) indices).count = 0) :
    1 ≤ (removeAll (addAll ObjList.empty values) indices).capacity ∧
    (removeAll (addAll ObjList.empty values) indices).capacity ≤ 8 ∧
    ∃ k : Nat, (removeAll (addAll ObjList.empty values) indices).capacity = 2 ^ k := by
  have hwf : ObjList.empty.WF := by decide
  obtain ⟨b1, b2, _, b4⟩ := addAll_spec values ObjList.empty hwf (Or.inl rfl)
  have hs := addAll_slack values ObjList.empty hwf (Or.inl (by decide))
  have hlen : 0 < values.length := List.length_pos.mpr hN
  have hcount : (addAll ObjList.empty values).count = values.length := by
    rw [b2]; show (0 : Int) + _ = _; simp
  have hinit : ShrinkInv (addAll ObjList.empty values) := by
    refine ⟨b1, ?_, hs, ?_⟩
    · rcases b4 with b4 | ⟨k, hk⟩
      · exfalso
        have := b1.1.2
        omega
      · exact ⟨k + 4, by rw [hk, pow_add]; ring⟩
    · intro hz; omega
  obtain ⟨_, ⟨k, hk⟩, _, h8⟩ := removeAll_shrinkInv indices _ hinit hvalid
  refine ⟨?_, h8 hempty, k, hk⟩
  rw [hk]
  exact one_le_pow₀ (by norm_num : (1 : Int) ≤ 2)

theorem list_shrink_to_empty_witness :
    1 ≤ (removeAll (addAll ObjList.empty [Value.null, Value.bool true])
          [Value.ofInt 1, Value.ofInt 0]).capacity ∧
    (removeAll (addAll ObjList.empty [Value.null, Value.bool true])
          [Value.ofInt 1, Value.ofInt 0]).capacity ≤ 8 :=
  ⟨(list_shrink_to_empty [Value.null, Value.bool true] [Value.ofInt 1, Value.ofInt 0]
      (by decide) (by decide) (by decide)).1,
   (list_shrink_to_empty [Value.null, Value.bool true] [Value.ofInt 1, Value.ofInt 0]
      (by decide) (by decide) (by decide)).2.1⟩

/-- Claim C3 (count within capacity).  The empty list satisfies `0 ≤ count ≤ capacity`, and
each of `list_add`, `list_insert`, `list_removeAt` and `list_clear`, whatever its
arguments (valid index or not), leaves a list that satisfies it when the list it was
called on does. -/
theorem list_ops_preserve_inv :
    ObjList.empty.Inv ∧
    (∀ (l : ObjList) (v : Value), l.Inv → (primitive_list_add l v).2.Inv) ∧
    (∀ (l : ObjList) (v index : Value), l.Inv → (primitive_list_insert l v index).2.Inv) ∧
    (∀ (l : ObjList) (index : Value), l.Inv → (primitive_list_removeAt l index).2.Inv) ∧
    (∀ l : ObjList, l.Inv → (primitive_list_clear l).2.Inv) := by
  refine ⟨by decide, ?_, ?_, ?_, ?_⟩
  · intro l v h
    obtain ⟨e1, e2⟩ := ensureListCapacity_fields l h
    obtain ⟨h0, h1⟩ := h
    unfold primitive_list_add ObjList.Inv
    dsimp only
    omega
  · intro l v index h
    obtain ⟨e1, e2⟩ := ensureListCapacity_fields l h
    unfold primitive_list_insert
    dsimp only
    split
    · exact h
    · obtain ⟨h0, h1⟩ := h
      unfold ObjList.Inv
      dsimp only
      omega
  · intro l index h
    obtain ⟨h0, h1⟩ := h
    have hdiv : Int.tdiv l.capacity LIST_GROW_FACTOR = l.capacity / 2 :=
      Int.tdiv_eq_ediv (by omega) (by decide)
    unfold primitive_list_removeAt
    dsimp only
    split
    · exact ⟨h0, h1⟩
    · rename_i hne
      rcases validateIndex_range index l.count with hr | hr
      · exact absurd hr hne
      · rw [hdiv]
        unfold ObjList.Inv
        split <;> dsimp only <;> omega
  · intro l _
    unfold primitive_list_clear ObjList.Inv
    dsimp only
    omega

theorem list_ops_preserve_inv_witness :
    (primitive_list_add ObjList.empty Value.null).2.Inv ∧
    (primitive_list_insert ObjList.empty Value.null (Value.ofInt 5)).2.Inv ∧
    (primitive_list_removeAt (primitive_list_add ObjList.empty Value.null).2 (Value.ofInt 0)).2.Inv ∧
    (primitive_list_clear (primitive_list_add ObjList.empty Value.null).2).2.Inv :=
  ⟨list_ops_preserve_inv.2.1 _ _ list_ops_preserve_inv.1,
   list_ops_preserve_inv.2.2.1 _ _ _ list_ops_preserve_inv.1,
   list_ops_preserve_inv.2.2.2.1 _ _ (list_ops_preserve_inv.2.1 _ _ list_ops_preserve_inv.1),
   list_ops_preserve_inv.2.2.2.2 _ (list_ops_preserve_inv.2.1 _ _ list_ops_preserve_inv.1)⟩

/-- Claim C4, counterexample.  After one `list_add` and one `list_removeAt` of the element
just added the capacity is 8: not 0 and below the floor 16. -/
theorem capacity_floor_counterexample :
    (runOps ObjList.empty [ListOp.add Value.null, ListOp.removeAt (Value.ofInt 0)]).capacity
      = 8 ∧
    ¬ ((runOps ObjList.empty
          [ListOp.add Value.null, ListOp.removeAt (Value.ofInt 0)]).capacity = 0 ∨
       16 ≤ (runOps ObjList.empty
          [ListOp.add Value.null, ListOp.removeAt (Value.ofInt 0)]).capacity) := by
  decide

/-- Claim C4, amended.  In every list state reachable from the empty list by `list_add`,
`list_insert`, `list_removeAt` and `list_clear` calls the capacity is 0 or a power of
two; it is 0 or at least the floor 16 when no `list_removeAt` is among the calls
(`list_removeAt` halves the capacity without regard to the floor). -/
theorem reachable_capacity (ops : List ListOp) :
    ((runOps ObjList.empty ops).capacity = 0 ∨
      ∃ k : Nat, (runOps ObjList.empty ops).capacity = 2 ^ k) ∧
    ((∀ op ∈ ops, op.isRemoveAt = false) →
      ((runOps ObjList.empty ops).capacity = 0 ∨ 16 ≤ (runOps ObjList.empty ops).capacity)) :=
  (runOps_capacity ops).2

theorem reachable_capacity_witness :
    (runOps ObjList.empty
        [ListOp.add Value.null, ListOp.insert Value.null (Value.ofInt 0), ListOp.clear,
          ListOp.add Value.null]).capacity = 0 ∨
    16 ≤ (runOps ObjList.empty
        [ListOp.add Value.null, ListOp.insert Value.null (Value.ofInt 0), ListOp.clear,
          ListOp.add Value.null]).capacity :=
  (reachable_capacity
    [ListOp.add Value.null, ListOp.insert Value.null (Value.ofInt 0), ListOp.clear,
      ListOp.add Value.null]).2 (by decide)

/-- Claim C5 (index rule).  For a count `c` and an index value, `validateIndex` returns `i`
when the index is the whole number `i` with `0 ≤ i < c`, returns `c + i` when it is the
whole number `i` with `-c ≤ i < 0`, and returns -1 in every other case (not a number,
NaN or infinite, fractional, or a whole number outside `[-c, c)`); so the result is -1
or lies in `[0, c)`. -/
theorem validateIndex_rule (index : Value) (c : Int) :
    (∀ i : Int, index = Value.ofInt i → 0 ≤ i → i < c → validateIndex index c = i) ∧
    (∀ i : Int, index = Value.ofInt i → -c ≤ i → i < 0 → validateIndex index c = c + i) ∧
    ((¬ ∃ i : Int, index = Value.ofInt i ∧ -c ≤ i ∧ i < c) → validateIndex index c = -1) ∧
    (validateIndex index c = -1 ∨ (0 ≤ validateIndex index c ∧ validateIndex index c < c)) := by
  refine ⟨?_, ?_, ?_, validateIndex_range index c⟩
  · intro i hi h0 h1
    rw [hi, validateIndex_ofInt, if_pos h0, if_pos h1]
  · intro i hi h0 h1
    rw [hi, validateIndex_ofInt, if_neg (by omega), if_pos (by omega)]
  · intro h
    by_cases hw : ∃ i : Int, index = Value.ofInt i
    · obtain ⟨i, rfl⟩ := hw
      have hout : ¬ (-c ≤ i ∧ i < c) := fun hr => h ⟨i, rfl, hr⟩
      rw [validateIndex_ofInt]
      split <;> split <;> omega
    · exact validateIndex_not_whole index c hw

theorem validateIndex_rule_witness :
    validateIndex (Value.ofInt 2) 3 = 2 ∧ validateIndex (Value.ofInt (-1)) 3 = 3 + -1 ∧
    validateIndex (Value.obj (Obj.str [])) 3 = -1 ∧
    validateIndex (Value.num (Double.finite (5 / 2))) 3 = -1 ∧
    validateIndex (Value.ofInt 3) 3 = -1 :=
  ⟨(validateIndex_rule (Value.ofInt 2) 3).1 2 rfl (by decide) (by decide),
   (validateIndex_rule (Value.ofInt (-1)) 3).2.1 (-1) rfl (by decide) (by decide),
   (validateIndex_rule (Value.obj (Obj.str [])) 3).2.2.1 (by
      rintro ⟨i, hi, _⟩
      simp [Value.ofInt] at hi),
   (validateIndex_rule (Value.num (Double.finite (5 / 2))) 3).2.2.1 (by
      rintro ⟨i, hi, _⟩
      simp only [Value.ofInt, Double.ofInt, Value.num.injEq, Double.finite.injEq] at hi
      have h2 : (5 : ℚ) = ((2 * i : Int) : ℚ) := by push_cast; linarith
      have h3 : (5 : Int) = 2 * i := by exact_mod_cast h2
      omega),
   (validateIndex_rule (Value.ofInt 3) 3).2.2.1 (by
      rintro ⟨i, hi, h0, h1⟩
      have := Value.ofInt_injective 3 i hi
      omega)⟩

/-- Claim C6 (index symmetry of the list subscript).  For a well-formed list of length
`L ≥ 1`, `list_subscript` returns the same element for `L - 1` and `-1`, and for `-L`
and `0`; for every `0 ≤ i < L` it returns the same element for `i` and `i - L`, which is
the `i`-th element; and for every index that is not a whole number in `[-L, L)` it
returns Null. -/
theorem list_subscript_symmetry (l : ObjList) (hwf : l.WF) (hL : 1 ≤ l.count) :
    primitive_list_subscript l (Value.ofInt (l.count - 1)) =
      primitive_list_subscript l (Value.ofInt (-1)) ∧
    primitive_list_subscript l (Value.ofInt (-l.count)) =
      primitive_list_subscript l (Value.ofInt 0) ∧
    (∀ i : Int, 0 ≤ i → i < l.count →
      primitive_list_subscript l (Value.ofInt i) =
        primitive_list_subscript l (Value.ofInt (i - l.count)) ∧
      l.items[i.toNat]? = some (primitive_list_subscript l (Value.ofInt i))) ∧
    (∀ index : Value, (¬ ∃ i : Int, index = Value.ofInt i ∧ -l.count ≤ i ∧ i < l.count) →
      primitive_list_subscript l index = Value.null) := by
  obtain ⟨⟨h0, h1⟩, h2⟩ := hwf
  have hpos : ∀ i : Int, 0 ≤ i → i < l.count →
      primitive_list_subscript l (Value.ofInt i) = l.elements.getD i.toNat Value.null := by
    intro i hi0 hi1
    have hv : validateIndex (Value.ofInt i) l.count = i := by
      rw [validateIndex_ofInt, if_pos hi0, if_pos hi1]
    have hne : ¬ (i = -1) := by omega
    unfold primitive_list_subscript
    simp only [hv, hne, if_false]
  have hneg : ∀ i : Int, -l.count ≤ i → i < 0 →
      primitive_list_subscript l (Value.ofInt i) =
        l.elements.getD (l.count + i).toNat Value.null := by
    intro i hi0 hi1
    have hi2 : ¬ (0 ≤ i) := by omega
    have hi3 : 0 ≤ l.count + i := by omega
    have hv : validateIndex (Value.ofInt i) l.count = l.count + i := by
      rw [validateIndex_ofInt, if_neg hi2, if_pos hi3]
    have hne : ¬ (l.count + i = -1) := by omega
    unfold primitive_list_subscript
    simp only [hv, hne, if_false]
  refine ⟨?_, ?_, ?_, ?_⟩
  · rw [hpos _ (by omega) (by omega), hneg _ (by omega) (by omega)]
    congr 2
  · rw [hpos 0 (by omega) (by omega), hneg _ (by omega) (by omega)]
    congr 2
    omega
  · intro i hi0 hi1
    refine ⟨?_, ?_⟩
    · rw [hpos i hi0 hi1, hneg _ (by omega) (by omega)]
      congr 2
      omega
    · rw [hpos i hi0 hi1]
      unfold ObjList.items
      rw [List.getElem?_take, if_pos (by omega),
        List.getD_eq_getElem _ _ (by omega : i.toNat < l.elements.length)]
      simp
  · intro index h
    unfold primitive_list_subscript
    by_cases hw : ∃ i : Int, index = Value.ofInt i
    · obtain ⟨i, rfl⟩ := hw
      have hout : ¬ (-l.count ≤ i ∧ i < l.count) := fun hr => h ⟨i, rfl, hr⟩
      have : validateIndex (Value.ofInt i) l.count = -1 := by
        rw [validateIndex_ofInt]
        split <;> split <;> omega
      rw [this]
      rfl
    · rw [validateIndex_not_whole index l.count hw]
      rfl

theorem list_subscript_symmetry_witness :
    primitive_list_subscript (addAll ObjList.empty [Value.bool true, Value.null])
        (Value.ofInt (2 - 1)) =
      primitive_list_subscript (addAll ObjList.empty [Value.bool true, Value.null])
        (Value.ofInt (-1)) :=
  (list_subscript_symmetry (addAll ObjList.empty [Value.bool true, Value.null])
    (by decide) (by decide)).1

/-- Claim C7 (insert at the end).  For a list with `0 ≤ count ≤ capacity` and a value `v`,
`list_insert` of `v` at index `count` and `list_add` of `v` return the same value, `v`,
and leave the same list: the same buffer, count and capacity. -/
theorem list_insert_at_count_eq_add (l : ObjList) (v : Value) (h : l.Inv) :
    primitive_list_insert l v (Value.ofInt l.count) = primitive_list_add l v ∧
    (primitive_list_add l v).1 = v := by
  obtain ⟨h0, h1⟩ := h
  obtain ⟨e1, _⟩ := ensureListCapacity_fields l ⟨h0, h1⟩
  have hv : validateIndex (Value.ofInt l.count) (l.count + 1) = l.count := by
    rw [validateIndex_ofInt, if_pos h0, if_pos (by omega)]
  have hne : ¬ (l.count = -1) := by omega
  refine ⟨?_, rfl⟩
  unfold primitive_list_insert primitive_list_add
  simp only [hv, hne, if_false, e1, sub_self, Int.toNat_zero, insertShift]

theorem list_insert_at_count_eq_add_witness :
    primitive_list_insert (addAll ObjList.empty [Value.bool true]) Value.null (Value.ofInt 1) =
      primitive_list_add (addAll ObjList.empty [Value.bool true]) Value.null :=
  (list_insert_at_count_eq_add (addAll ObjList.empty [Value.bool true]) Value.null
    (by decide)).1

/-- Claim C8 (insertion).  For a well-formed list with elements `e_0 .. e_(n-1)` and a whole
index `i` with `0 ≤ i ≤ n`, `list_insert` of `v` at `i` returns `v` and leaves the list
with count `n + 1` and elements `e_0 .. e_(i-1), v, e_i .. e_(n-1)`; the list stays
well-formed. -/
theorem list_insert_shifts_up (l : ObjList) (v : Value) (i : Int) (hwf : l.WF)
    (h0 : 0 ≤ i) (h1 : i ≤ l.count) :
    (primitive_list_insert l v (Value.ofInt i)).1 = v ∧
    (primitive_list_insert l v (Value.ofInt i)).2.count = l.count + 1 ∧
    (primitive_list_insert l v (Value.ofInt i)).2.items =
      l.items.take i.toNat ++ v :: l.items.drop i.toNat ∧
    (primitive_list_insert l v (Value.ofInt i)).2.WF := by
  have hv : validateIndex (Value.ofInt i) (l.count + 1) = ((i.toNat : Nat) : Int) := by
    rw [validateIndex_ofInt, if_pos h0, if_pos (by omega)]
    omega
  obtain ⟨a1, a2, a3, a4, _⟩ := list_insert_valid l v (Value.ofInt i) i.toNat hwf hv (by omega)
  exact ⟨a1, a3, a4, a2⟩

theorem list_insert_shifts_up_witness :
    (primitive_list_insert (addAll ObjList.empty [Value.bool true, Value.bool false])
        Value.null (Value.ofInt 1)).2.items =
      List.take (1 : Int).toNat (addAll ObjList.empty [Value.bool true, Value.bool false]).items
        ++ Value.null ::
          List.drop (1 : Int).toNat
            (addAll ObjList.empty [Value.bool true, Value.bool false]).items :=
  (list_insert_shifts_up (addAll ObjList.empty [Value.bool true, Value.bool false])
    Value.null 1 (by decide) (by decide) (by decide)).2.2.1

/-- Claim C9, counterexample.  On the two-element list `[true, false]`, `list_insert` of Null
at index -1 stores it at position 2 (the end), not at position `count + index = 1`; and
at index -3, where `count + index = -1` lies outside `[0, 2]`, the insertion succeeds
all the same and stores it at position 0. -/
theorem list_insert_negative_index_counterexample :
    (primitive_list_insert (addAll ObjList.empty [Value.bool true, Value.bool false])
        Value.null (Value.ofInt (-1))).2.items =
      [Value.bool true, Value.bool false, Value.null] ∧
    ¬ ((primitive_list_insert (addAll ObjList.empty [Value.bool true, Value.bool false])
        Value.null (Value.ofInt (-1))).2.items[((2 : Int) + (-1)).toNat]? = some Value.null) ∧
    (primitive_list_insert (addAll ObjList.empty [Value.bool true, Value.bool false])
        Value.null (Value.ofInt (-3))).2.items =
      [Value.null, Value.bool true, Value.bool false] := by
  decide!

/-- Claim C9, amended.  `list_insert` resolves a negative index against `count + 1`, the
count after the insertion: for a well-formed list of count `n` and a negative whole
index `i`, the insertion succeeds exactly when `n + 1 + i` lies in `[0, n]`; the value is
then stored at position `n + 1 + i` (so -1 appends), and otherwise the call returns Null
and leaves the list as it was. -/
theorem list_insert_negative_index (l : ObjList) (v : Value) (i : Int) (hwf : l.WF)
    (hi : i < 0) :
    (0 ≤ l.count + 1 + i →
      (primitive_list_insert l v (Value.ofInt i)).1 = v ∧
      (primitive_list_insert l v (Value.ofInt i)).2.count = l.count + 1 ∧
      (primitive_list_insert l v (Value.ofInt i)).2.items[(l.count + 1 + i).toNat]? = some v ∧
      (primitive_list_insert l v (Value.ofInt i)).2.items =
        l.items.take (l.count + 1 + i).toNat ++ v :: l.items.drop (l.count + 1 + i).toNat) ∧
    (l.count + 1 + i < 0 → primitive_list_insert l v (Value.ofInt i) = (Value.null, l)) := by
  have hwf' := hwf
  obtain ⟨⟨h0, h1⟩, h2⟩ := hwf'
  have hi2 : ¬ (0 ≤ i) := by omega
  refine ⟨?_, ?_⟩
  · intro hr
    have hv : validateIndex (Value.ofInt i) (l.count + 1) =
        (((l.count + 1 + i).toNat : Nat) : Int) := by
      rw [validateIndex_ofInt, if_neg hi2, if_pos hr]
      omega
    obtain ⟨a1, _, a3, a4, _⟩ :=
      list_insert_valid l v (Value.ofInt i) (l.count + 1 + i).toNat hwf hv (by omega)
    refine ⟨a1, a3, ?_, a4⟩
    rw [a4]
    have hlen : (List.take (l.count + 1 + i).toNat l.items).length = (l.count + 1 + i).toNat := by
      unfold ObjList.items
      simp only [List.length_take]
      omega
    rw [List.getElem?_append_right (by omega), hlen]
    simp
  · intro hr
    have hv : validateIndex (Value.ofInt i) (l.count + 1) = -1 := by
      rw [validateIndex_ofInt, if_neg hi2, if_neg (by omega)]
    unfold primitive_list_insert
    simp only [hv, if_true]

theorem list_insert_negative_index_witness :
    (primitive_list_insert (addAll ObjList.empty [Value.bool true, Value.bool false])
        Value.null (Value.ofInt (-1))).1 = Value.null ∧
    (primitive_list_insert (addAll ObjList.empty [Value.bool true, Value.bool false])
        Value.null (Value.ofInt (-1))).2.count =
      (addAll ObjList.empty [Value.bool true, Value.bool false]).count + 1 :=
  ⟨((list_insert_negative_index (addAll ObjList.empty [Value.bool true, Value.bool false])
      Value.null (-1) (by decide) (by decide)).1 (by decide)).1,
   ((list_insert_negative_index (addAll ObjList.empty [Value.bool true, Value.bool false])
      Value.null (-1) (by decide) (by decide)).1 (by decide)).2.1⟩

/-- Claim C10, the code at the failing input.  The list `[true, null, false]` built by
`list_add` calls has capacity 16 and a valid buffer.  `list_removeAt` with index 0
returns `true` and leaves count 2 and capacity 8, but it has dropped the pointer the
shrinking `wrenReallocate` returned: the list is left with a stale buffer, not with the
elements `null, false`, and the next `list_add` writes through the stale pointer. -/
theorem list_removeAt_stale_elements :
    (addAll ObjList.empty [Value.bool true, Value.null, Value.bool false]).buffer =
      BufferState.valid ∧
    (addAll ObjList.empty [Value.bool true, Value.null, Value.bool false]).capacity = 16 ∧
    (primitive_list_removeAt
      (addAll ObjList.empty [Value.bool true, Value.null, Value.bool false])
      (Value.ofInt 0)).1 = Value.bool true ∧
    (primitive_list_removeAt
      (addAll ObjList.empty [Value.bool true, Value.null, Value.bool false])
      (Value.ofInt 0)).2.count = 2 ∧
    (primitive_list_removeAt
      (addAll ObjList.empty [Value.bool true, Value.null, Value.bool false])
      (Value.ofInt 0)).2.capacity = 8 ∧
    (primitive_list_removeAt
      (addAll ObjList.empty [Value.bool true, Value.null, Value.bool false])
      (Value.ofInt 0)).2.buffer = BufferState.stale ∧
    (primitive_list_add
      (primitive_list_removeAt
        (addAll ObjList.empty [Value.bool true, Value.null, Value.bool false])
        (Value.ofInt 0)).2 Value.null).2.buffer = BufferState.undefined := by
  decide

/-- Claim C11 (invalid index).  An index that fails the validation the primitive runs
(`validateIndex` returns -1: for `[0, count]` in `list_insert`, for `[0, count)` in
`list_removeAt` and `list_subscript`) makes the primitive return Null and leave the list,
its buffer, count and capacity, exactly as it was; this is so for every index that is
not a number, is fractional, or is a whole number out of the range. -/
theorem invalid_index_is_noop (l : ObjList) (v index : Value) :
    (validateIndex index (l.count + 1) = -1 →
      primitive_list_insert l v index = (Value.null, l)) ∧
    (validateIndex index l.count = -1 →
      primitive_list_removeAt l index = (Value.null, l) ∧
      primitive_list_subscript l index = Value.null) ∧
    ((¬ ∃ i : Int, index = Value.ofInt i ∧ -(l.count + 1) ≤ i ∧ i < l.count + 1) →
      primitive_list_insert l v index = (Value.null, l)) ∧
    ((¬ ∃ i : Int, index = Value.ofInt i ∧ -l.count ≤ i ∧ i < l.count) →
      primitive_list_removeAt l index = (Value.null, l) ∧
      primitive_list_subscript l index = Value.null) :=
  ⟨list_insert_invalid l v index,
   fun hv => ⟨list_removeAt_invalid l index hv, list_subscript_invalid l index hv⟩,
   fun h => list_insert_invalid l v index (validateIndex_out_of_range index _ h),
   fun h => ⟨list_removeAt_invalid l index (validateIndex_out_of_range index _ h),
     list_subscript_invalid l index (validateIndex_out_of_range index _ h)⟩⟩

theorem invalid_index_is_noop_witness :
    primitive_list_insert (addAll ObjList.empty [Value.bool true]) Value.null (Value.ofInt 2) =
      (Value.null, addAll ObjList.empty [Value.bool true]) ∧
    primitive_list_removeAt (addAll ObjList.empty [Value.bool true]) (Value.bool false) =
      (Value.null, addAll ObjList.empty [Value.bool true]) :=
  ⟨(invalid_index_is_noop (addAll ObjList.empty [Value.bool true]) Value.null
      (Value.ofInt 2)).1 (by decide),
   ((invalid_index_is_noop (addAll ObjList.empty [Value.bool true]) Value.null
      (Value.bool false)).2.1 (by decide)).1⟩

/-- Claim C12 (operator fallback).  With the sentinel of the bootstrapped VM: for a number
receiver and a right operand that is not a number each of `- + * / % < > <= >=` of Num
returns the sentinel, and for a string receiver and a right operand that is not a string
`+` of String returns it; when the right operand is a number, the Num primitives return
a number (arithmetic) or a boolean (comparisons), and when it is a string, `+` of String
returns a string: never the sentinel. -/
theorem operator_fallback (ops : FloatOps) (uninit : Nat → Char) (vm0 : WrenVM) (x : Double)
    (s : List Char) (b : Value) :
    (IS_NUM b = false →
      primitive_num_minus ops (wrenLoadCore vm0) (Value.num x) b = (wrenLoadCore vm0).unsupported ∧
      primitive_num_plus ops (wrenLoadCore vm0) (Value.num x) b = (wrenLoadCore vm0).unsupported ∧
      primitive_num_multiply ops (wrenLoadCore vm0) (Value.num x) b
        = (wrenLoadCore vm0).unsupported ∧
      primitive_num_divide ops (wrenLoadCore vm0) (Value.num x) b
        = (wrenLoadCore vm0).unsupported ∧
      primitive_num_mod ops (wrenLoadCore vm0) (Value.num x) b = (wrenLoadCore vm0).unsupported ∧
      primitive_num_lt (wrenLoadCore vm0) (Value.num x) b = (wrenLoadCore vm0).unsupported ∧
      primitive_num_gt (wrenLoadCore vm0) (Value.num x) b = (wrenLoadCore vm0).unsupported ∧
      primitive_num_lte (wrenLoadCore vm0) (Value.num x) b = (wrenLoadCore vm0).unsupported ∧
      primitive_num_gte (wrenLoadCore vm0) (Value.num x) b = (wrenLoadCore vm0).unsupported) ∧
    (IS_STRING b = false →
      primitive_string_plus uninit (wrenLoadCore vm0) (Value.obj (Obj.str s)) b
        = (wrenLoadCore vm0).unsupported) ∧
    (IS_NUM b = true →
      (∀ r ∈ [primitive_num_minus ops (wrenLoadCore vm0) (Value.num x) b,
              primitive_num_plus ops (wrenLoadCore vm0) (Value.num x) b,
              primitive_num_multiply ops (wrenLoadCore vm0) (Value.num x) b,
              primitive_num_divide ops (wrenLoadCore vm0) (Value.num x) b,
              primitive_num_mod ops (wrenLoadCore vm0) (Value.num x) b],
        (∃ d : Double, r = Value.num d) ∧ r ≠ (wrenLoadCore vm0).unsupported) ∧
      (∀ r ∈ [primitive_num_lt (wrenLoadCore vm0) (Value.num x) b,
              primitive_num_gt (wrenLoadCore vm0) (Value.num x) b,
              primitive_num_lte (wrenLoadCore vm0) (Value.num x) b,
              primitive_num_gte (wrenLoadCore vm0) (Value.num x) b],
        (∃ t : Bool, r = Value.bool t) ∧ r ≠ (wrenLoadCore vm0).unsupported)) ∧
    (IS_STRING b = true →
      (∃ t : List Char,
        primitive_string_plus uninit (wrenLoadCore vm0) (Value.obj (Obj.str s)) b
          = Value.obj (Obj.str t)) ∧
      primitive_string_plus uninit (wrenLoadCore vm0) (Value.obj (Obj.str s)) b
        ≠ (wrenLoadCore vm0).unsupported) := by
  obtain ⟨a, ha⟩ := wrenLoadCore_unsupported vm0
  refine ⟨fun h => ?_, fun h => ?_, fun h => ⟨?_, ?_⟩, fun h => ?_⟩
  · simp [primitive_num_minus, primitive_num_plus, primitive_num_multiply,
      primitive_num_divide, primitive_num_mod, primitive_num_lt, primitive_num_gt,
      primitive_num_lte, primitive_num_gte, h]
  · simp [primitive_string_plus, h]
  · intro r hr
    simp only [primitive_num_minus, primitive_num_plus, primitive_num_multiply,
      primitive_num_divide, primitive_num_mod, h, Bool.not_true, Bool.false_eq_true,
      if_false, List.mem_cons, List.mem_singleton, List.not_mem_nil, or_false] at hr
    rw [ha]
    rcases hr with rfl | rfl | rfl | rfl | rfl <;> exact ⟨⟨_, rfl⟩, by simp⟩
  · intro r hr
    simp only [primitive_num_lt, primitive_num_gt, primitive_num_lte, primitive_num_gte, h,
      Bool.not_true, Bool.false_eq_true, if_false, List.mem_cons, List.mem_singleton,
      List.not_mem_nil, or_false] at hr
    rw [ha]
    rcases hr with rfl | rfl | rfl | rfl <;> exact ⟨⟨_, rfl⟩, by simp⟩
  · have hres : ∃ t : List Char,
        primitive_string_plus uninit (wrenLoadCore vm0) (Value.obj (Obj.str s)) b
          = Value.obj (Obj.str t) := by
      simp only [primitive_string_plus, h, Bool.not_true, Bool.false_eq_true, if_false]
      exact ⟨_, rfl⟩
    refine ⟨hres, ?_⟩
    obtain ⟨t, ht⟩ := hres
    rw [ht, ha]
    simp

theorem operator_fallback_witness :
    primitive_num_plus ⟨Double.add, Double.add, Double.add, Double.add, Double.add⟩
        (wrenLoadCore WrenVM.new) (Value.num (Double.ofInt 3)) (Value.obj (Obj.str ['x', NUL])) =
      (wrenLoadCore WrenVM.new).unsupported ∧
    primitive_string_plus (fun _ => 'z') (wrenLoadCore WrenVM.new)
        (Value.obj (Obj.str ['x', NUL])) (Value.num (Double.ofInt 3)) =
      (wrenLoadCore WrenVM.new).unsupported :=
  ⟨((operator_fallback ⟨Double.add, Double.add, Double.add, Double.add, Double.add⟩
      (fun _ => 'z') WrenVM.new (Double.ofInt 3) ['x', NUL]
      (Value.obj (Obj.str ['x', NUL]))).1 rfl).2.1,
   (operator_fallback ⟨Double.add, Double.add, Double.add, Double.add, Double.add⟩
      (fun _ => 'z') WrenVM.new (Double.ofInt 3) ['x', NUL]
      (Value.num (Double.ofInt 3))).2.1 rfl⟩

/-- Claim C13 (equality totality).  For a number receiver and a right operand that is not
a number, `==` of Num returns false and `!=` returns true; likewise for a string receiver
and a right operand that is not a string.  For every pair of operands the `==` and `!=`
of Num, String and Object return booleans, the one of `!=` the negation of the one of
`==`, and a boolean is never the sentinel of the bootstrapped VM. -/
theorem equality_total (wrenValuesEqual : Value → Value → Bool) (vm0 : WrenVM) (x : Double)
    (s : List Char) (a b : Value) :
    (IS_NUM b = false →
      primitive_num_eqeq (Value.num x) b = Value.bool false ∧
      primitive_num_bangeq (Value.num x) b = Value.bool true) ∧
    (IS_STRING b = false →
      primitive_string_eqeq (Value.obj (Obj.str s)) b = Value.bool false ∧
      primitive_string_bangeq (Value.obj (Obj.str s)) b = Value.bool true) ∧
    (∃ r : Bool, primitive_num_eqeq (Value.num x) b = Value.bool r ∧
      primitive_num_bangeq (Value.num x) b = Value.bool (!r)) ∧
    (∃ r : Bool, primitive_string_eqeq (Value.obj (Obj.str s)) b = Value.bool r ∧
      primitive_string_bangeq (Value.obj (Obj.str s)) b = Value.bool (!r)) ∧
    (∃ r : Bool, primitive_object_eqeq wrenValuesEqual a b = Value.bool r ∧
      primitive_object_bangeq wrenValuesEqual a b = Value.bool (!r)) ∧
    (∀ r : Bool, Value.bool r ≠ (wrenLoadCore vm0).unsupported) := by
  refine ⟨fun h => ?_, fun h => ?_, ?_, ?_, ⟨_, rfl, rfl⟩, ?_⟩
  · simp [primitive_num_eqeq, primitive_num_bangeq, h]
  · simp [primitive_string_eqeq, primitive_string_bangeq, h]
  · cases h : IS_NUM b
    · exact ⟨false, by simp [primitive_num_eqeq, h], by simp [primitive_num_bangeq, h]⟩
    · exact ⟨(AS_NUM (Value.num x)).eq (AS_NUM b), by simp [primitive_num_eqeq, h],
        by simp [primitive_num_bangeq, h, Double.ne_eq_not_eq]⟩
  · cases h : IS_STRING b
    · exact ⟨false, by simp [primitive_string_eqeq, h], by simp [primitive_string_bangeq, h]⟩
    · exact ⟨strcmp (AS_CSTRING (Value.obj (Obj.str s))) (AS_CSTRING b) == 0,
        by simp [primitive_string_eqeq, h], by simp [primitive_string_bangeq, h, bne]⟩
  · intro r
    obtain ⟨i, hi⟩ := wrenLoadCore_unsupported vm0
    rw [hi]
    simp

theorem equality_total_witness :
    primitive_num_eqeq (Value.num (Double.ofInt 3)) (Value.obj (Obj.str ['3', NUL])) =
      Value.bool false ∧
    primitive_string_bangeq (Value.obj (Obj.str ['3', NUL])) (Value.num (Double.ofInt 3)) =
      Value.bool true :=
  ⟨((equality_total (fun _ _ => false) WrenVM.new (Double.ofInt 3) [] Value.null
      (Value.obj (Obj.str ['3', NUL]))).1 rfl).1,
   ((equality_total (fun _ _ => false) WrenVM.new (Double.ofInt 3) ['3', NUL] Value.null
      (Value.num (Double.ofInt 3))).2.1 rfl).2⟩

/-- Claim C14 (string concatenation).  For strings whose contents `a` and `b` hold no NUL,
whatever follows the terminator in their buffers, `string_plus` returns a string whose
buffer is the bytes of `a`, then those of `b`, then a NUL: its content is `a ++ b`, its
length `|a| + |b|`, and the byte at offset `|a| + |b|` is the terminating NUL.  The
operands are values the primitive only reads. -/
theorem string_plus_concat (uninit : Nat → Char) (vm : WrenVM) (a b restA restB : List Char)
    (ha : NUL ∉ a) (hb : NUL ∉ b) :
    primitive_string_plus uninit vm (Value.obj (Obj.str (a ++ NUL :: restA)))
        (Value.obj (Obj.str (b ++ NUL :: restB))) =
      Value.obj (Obj.str (a ++ b ++ [NUL])) ∧
    cstring (a ++ b ++ [NUL]) = a ++ b ∧
    strlen (a ++ b ++ [NUL]) = a.length + b.length ∧
    (a ++ b ++ [NUL])[a.length + b.length]? = some NUL := by
  have hab : NUL ∉ a ++ b := by simp [ha, hb]
  have hc : cstring (a ++ b ++ [NUL]) = a ++ b := by
    simpa using cstring_append_nul (a ++ b) [] hab
  have hlen : strlen (a ++ b ++ [NUL]) = a.length + b.length := by
    unfold strlen
    rw [hc, List.length_append]
  have hnul : (a ++ b ++ [NUL])[a.length + b.length]? = some NUL := by
    rw [List.getElem?_append_right (by simp)]
    simp
  refine ⟨?_, hc, hlen, hnul⟩
  have hla : strlen (a ++ NUL :: restA) = a.length := by
    simp [strlen, cstring_append_nul a restA ha]
  have hlb : strlen (b ++ NUL :: restB) = b.length := by
    simp [strlen, cstring_append_nul b restB hb]
  simp only [primitive_string_plus, IS_STRING, AS_CSTRING, Bool.not_true, Bool.false_eq_true,
    if_false, hla, hlb, wrenNewString, strcpy, cstring_append_nul a restA ha,
    cstring_append_nul b restB hb]
  generalize hU : List.map uninit (List.range (a.length + b.length + 1)) = U
  have hUlen : U.length = a.length + b.length + 1 := by simp [← hU]
  -- the first copy fills the first `|a| + 1` bytes
  have hsplit1 : U = [] ++ U.take (a.length + 1) ++ U.drop (a.length + 1) := by simp
  have h1 : writeBytes U 0 (a ++ [NUL]) = a ++ [NUL] ++ U.drop (a.length + 1) := by
    have := writeBytes_spec (a ++ [NUL]) [] (U.take (a.length + 1)) (U.drop (a.length + 1))
      (by simp; omega)
    rw [← hsplit1] at this
    simpa using this
  -- the second copy fills the bytes from `|a|` on
  have h2 : writeBytes (a ++ [NUL] ++ U.drop (a.length + 1)) a.length (b ++ [NUL]) =
      a ++ (b ++ [NUL]) ++ [] := by
    have := writeBytes_spec (b ++ [NUL]) a ([NUL] ++ U.drop (a.length + 1)) []
      (by simp; omega)
    simpa using this
  rw [h1, h2]
  congr 2
  simp only [List.append_nil, ← List.append_assoc]
  rw [List.set_append_right _ _ (by simp)]
  simp

theorem string_plus_concat_witness :
    primitive_string_plus (fun _ => 'z') WrenVM.new
        (Value.obj (Obj.str (['a', 'b'] ++ NUL :: ['q'])))
        (Value.obj (Obj.str (['c', 'd'] ++ NUL :: []))) =
      Value.obj (Obj.str (['a', 'b'] ++ ['c', 'd'] ++ [NUL])) ∧
    strlen (['a', 'b'] ++ ['c', 'd'] ++ [NUL]) = 2 + 2 :=
  ⟨(string_plus_concat (fun _ => 'z') WrenVM.new ['a', 'b'] ['c', 'd'] ['q'] []
      (by decide) (by decide)).1,
   (string_plus_concat (fun _ => 'z') WrenVM.new ['a', 'b'] ['c', 'd'] ['q'] []
      (by decide) (by decide)).2.2.1⟩

/-- Claim C15 (string subscript).  For a string `s` of length `L`, `string_subscript`
returns what `validateIndex(index, L)` decides: Null when that is -1, and otherwise, with
`k` the validated position, a new string whose buffer starts with the byte `s[k]` and a
NUL, a one-character string.  So a whole index `i` in `[0, L)` gives the byte `s[i]`, a
whole `i` in `[-L, 0)` the byte `s[L + i]`, and every other index gives Null. -/
theorem string_subscript_rule (uninit : Nat → Char) (s : List Char) (index : Value) :
    (validateIndex index (strlen s : Nat) = -1 →
      primitive_string_subscript uninit (Value.obj (Obj.str s)) index = Value.null) ∧
    (∀ k : Nat, validateIndex index (strlen s : Nat) = (k : Int) →
      primitive_string_subscript uninit (Value.obj (Obj.str s)) index =
        Value.obj (Obj.str [s.getD k NUL, NUL, uninit 2]) ∧
      (cstring s)[k]? = some (s.getD k NUL) ∧
      cstring [s.getD k NUL, NUL, uninit 2] = [s.getD k NUL]) ∧
    (∀ i : Int, index = Value.ofInt i → 0 ≤ i → i < (strlen s : Nat) →
      primitive_string_subscript uninit (Value.obj (Obj.str s)) index =
        Value.obj (Obj.str [s.getD i.toNat NUL, NUL, uninit 2])) ∧
    (∀ i : Int, index = Value.ofInt i → -((strlen s : Nat) : Int) ≤ i → i < 0 →
      primitive_string_subscript uninit (Value.obj (Obj.str s)) index =
        Value.obj (Obj.str [s.getD ((strlen s : Nat) + i).toNat NUL, NUL, uninit 2])) ∧
    ((¬ ∃ i : Int, index = Value.ofInt i ∧ -((strlen s : Nat) : Int) ≤ i ∧ i < (strlen s : Nat)) →
      primitive_string_subscript uninit (Value.obj (Obj.str s)) index = Value.null) := by
  have hcases : (∃ i : Int, index = Value.ofInt i) ∨ ¬ ∃ i : Int, index = Value.ofInt i :=
    Classical.em _
  refine ⟨?_, ?_, ?_, ?_, ?_⟩
  · intro hv
    rcases hcases with ⟨i, rfl⟩ | hw
    · rw [validateIndex_ofInt] at hv
      rw [string_subscript_ofInt]
      split at hv <;> split at hv <;> first | omega | simp [*]
    · exact string_subscript_not_whole uninit _ index hw
  · intro k hv
    have hk : k < strlen s := by
      rcases validateIndex_range index (strlen s : Nat) with hr | hr <;> omega
    obtain ⟨g1, g2⟩ := cstring_getElem? s k hk
    have hone : cstring [s.getD k NUL, NUL, uninit 2] = [s.getD k NUL] := by
      have hb : (s.getD k NUL != NUL) = true := bne_iff_ne.mpr g2
      simp only [cstring]
      rw [List.takeWhile_cons, hb, List.takeWhile_cons]
      simp
    refine ⟨?_, g1, hone⟩
    rcases hcases with ⟨i, rfl⟩ | hw
    · rw [validateIndex_ofInt] at hv
      rw [string_subscript_ofInt]
      by_cases h0 : 0 ≤ i
      · rw [if_pos h0] at hv ⊢
        by_cases h1 : i < (strlen s : Nat)
        · rw [if_pos h1] at hv ⊢
          have : i.toNat = k := by omega
          rw [this]
        · rw [if_neg h1] at hv
          omega
      · rw [if_neg h0] at hv ⊢
        by_cases h1 : 0 ≤ (strlen s : Nat) + i
        · rw [if_pos h1] at hv ⊢
          have : ((strlen s : Nat) + i).toNat = k := by omega
          rw [this]
        · rw [if_neg h1] at hv
          omega
    · rw [validateIndex_not_whole index _ hw] at hv
      omega
  · intro i hi h0 h1
    rw [hi, string_subscript_ofInt, if_pos h0, if_pos h1]
  · intro i hi h0 h1
    rw [hi, string_subscript_ofInt, if_neg (by omega), if_pos (by omega)]
  · intro h
    rcases hcases with ⟨i, rfl⟩ | hw
    · have hout : ¬ (-((strlen s : Nat) : Int) ≤ i ∧ i < (strlen s : Nat)) :=
        fun hr => h ⟨i, rfl, hr⟩
      rw [string_subscript_ofInt]
      split <;> split <;> first | rfl | omega
    · exact string_subscript_not_whole uninit _ index hw

theorem string_subscript_rule_witness :
    primitive_string_subscript (fun _ => 'z') (Value.obj (Obj.str ['a', 'b', NUL]))
        (Value.ofInt (-1)) =
      Value.obj (Obj.str [['a', 'b', NUL].getD 1 NUL, NUL, 'z']) ∧
    primitive_string_subscript (fun _ => 'z') (Value.obj (Obj.str ['a', 'b', NUL]))
        (Value.ofInt 2) = Value.null :=
  ⟨((string_subscript_rule (fun _ => 'z') ['a', 'b', NUL] (Value.ofInt (-1))).2.1 1
      (by decide!)).1,
   (string_subscript_rule (fun _ => 'z') ['a', 'b', NUL] (Value.ofInt 2)).1 (by decide)⟩

/-- Claim C16, the code at the failing input.  On the list `[true, false]` built by
`list_add` calls (a valid buffer of 16 slots) `list_clear` returns Null and leaves count
0 and capacity 0, but the list keeps the pointer to the block the call has freed.  The
`list_add` that follows hands that pointer to `wrenReallocate` (old size 0, new size 16)
and writes through it: the outcome is undefined, and the slot after the added value
still holds the `false` of the freed block. -/
theorem list_clear_then_add_freed_buffer :
    (addAll ObjList.empty [Value.bool true, Value.bool false]).buffer = BufferState.valid ∧
    (addAll ObjList.empty [Value.bool true, Value.bool false]).elements.length = 16 ∧
    (primitive_list_clear (addAll ObjList.empty [Value.bool true, Value.bool false])).1 =
      Value.null ∧
    (primitive_list_clear (addAll ObjList.empty [Value.bool true, Value.bool false])).2.count
      = 0 ∧
    (primitive_list_clear
      (addAll ObjList.empty [Value.bool true, Value.bool false])).2.capacity = 0 ∧
    (primitive_list_clear
      (addAll ObjList.empty [Value.bool true, Value.bool false])).2.elements =
      (addAll ObjList.empty [Value.bool true, Value.bool false]).elements ∧
    (primitive_list_clear
      (addAll ObjList.empty [Value.bool true, Value.bool false])).2.buffer =
      BufferState.stale ∧
    (ensureListCapacity
      (primitive_list_clear
        (addAll ObjList.empty [Value.bool true, Value.bool false])).2 1).2 = some ⟨0, 16⟩ ∧
    (primitive_list_add
      (primitive_list_clear
        (addAll ObjList.empty [Value.bool true, Value.bool false])).2 Value.null).2.buffer =
      BufferState.undefined ∧
    (primitive_list_add
      (primitive_list_clear
        (addAll ObjList.empty [Value.bool true, Value.bool false])).2
      Value.null).2.elements.getD 1 Value.null = Value.bool false := by
  decide

/-- Claim C17 (call family).  For every `n` from 0 to 8 the bootstrap, run on the new VM,
leaves in the method table of the Function class, under the name `call` followed by `n`
spaces, a fiber primitive, `fn_call<n>`; that primitive pushes on the fiber it is given
an activation of the receiver `args[0]` with `n + 1` argument slots and returns no value;
and the nine names are pairwise distinct. -/
theorem call_family (n : Nat) (hn : n ≤ 8) :
    callName n ∈ (wrenLoadCore WrenVM.new).methods ∧
    findMethod (wrenLoadCore WrenVM.new) (wrenLoadCore WrenVM.new).fnClass (callName n) =
      Method.fiber (fnCall n) ∧
    (∃ f : Fiber → Value → Fiber, (fnCall n).fiberPrimitive = some f ∧
      ∀ (fiber : Fiber) (args0 : Value),
        f fiber args0 = callFunction fiber args0 ((n : Int) + 1) ∧
        (f fiber args0).frames = { fn := args0, numArgs := (n : Int) + 1 } :: fiber.frames) ∧
    ((List.range 9).map callName).Nodup := by
  have hnodup : ((List.range 9).map callName).Nodup := by decide
  have hreg : ∀ m, m ≤ 8 →
      callName m ∈ (wrenLoadCore WrenVM.new).methods ∧
      findMethod (wrenLoadCore WrenVM.new) (wrenLoadCore WrenVM.new).fnClass (callName m) =
        Method.fiber (fnCall m) := by
    set_option maxRecDepth 100000 in decide
  refine ⟨(hreg n hn).1, (hreg n hn).2, ?_, hnodup⟩
  interval_cases n <;> exact ⟨_, rfl, fun _ _ => ⟨rfl, rfl⟩⟩

theorem call_family_witness :
    findMethod (wrenLoadCore WrenVM.new) (wrenLoadCore WrenVM.new).fnClass (callName 3) =
      Method.fiber (fnCall 3) :=
  (call_family 3 (by decide)).2.1

/-- Claim C18 (toString of booleans and strings).  `bool_toString` returns the string
`true`, of length 4, for true and the string `false`, of length 5, for false;
`string_toString` returns its receiver, the very value it was given. -/
theorem toString_bool_string (uninit : Nat → Char) (v : Value) :
    primitive_bool_toString uninit (Value.bool true) =
      Value.obj (Obj.str ['t', 'r', 'u', 'e', NUL]) ∧
    cstring (AS_CSTRING (primitive_bool_toString uninit (Value.bool true))) =
      ['t', 'r', 'u', 'e'] ∧
    strlen (AS_CSTRING (primitive_bool_toString uninit (Value.bool true))) = 4 ∧
    primitive_bool_toString uninit (Value.bool false) =
      Value.obj (Obj.str ['f', 'a', 'l', 's', 'e', NUL]) ∧
    cstring (AS_CSTRING (primitive_bool_toString uninit (Value.bool false))) =
      ['f', 'a', 'l', 's', 'e'] ∧
    strlen (AS_CSTRING (primitive_bool_toString uninit (Value.bool false))) = 5 ∧
    primitive_string_toString v = v := by
  exact ⟨rfl,
    (by decide : cstring ['t', 'r', 'u', 'e', NUL] = ['t', 'r', 'u', 'e']),
    (by decide : strlen ['t', 'r', 'u', 'e', NUL] = 4), rfl,
    (by decide : cstring ['f', 'a', 'l', 's', 'e', NUL] = ['f', 'a', 'l', 's', 'e']),
    (by decide : strlen ['f', 'a', 'l', 's', 'e', NUL] = 5), rfl⟩

/-- Claim C19, the code at the failing input.  The list `[true, null]` built by `list_add`
calls has capacity 16, count 2 and a valid buffer.  `list_removeAt` with index 1 finds
`16 / 2 ≥ 2` and halves the capacity to 8, which is at least the count 1 it leaves; but
the block of 8 slots that `wrenReallocate` returns is dropped, and the list keeps the
pointer to the block of 16 it handed in: the buffer is stale, and the surviving element
is preserved only if the allocator shrank that block in place. -/
theorem list_removeAt_shrink_drops_buffer :
    (addAll ObjList.empty [Value.bool true, Value.null]).buffer = BufferState.valid ∧
    (addAll ObjList.empty [Value.bool true, Value.null]).capacity = 16 ∧
    (addAll ObjList.empty [Value.bool true, Value.null]).count = 2 ∧
    (primitive_list_removeAt (addAll ObjList.empty [Value.bool true, Value.null])
      (Value.ofInt 1)).2.capacity = Int.tdiv 16 2 ∧
    (primitive_list_removeAt (addAll ObjList.empty [Value.bool true, Value.null])
      (Value.ofInt 1)).2.count = 1 ∧
    (wrenReallocate (addAll ObjList.empty [Value.bool true, Value.null]).elements 16
      (Int.tdiv 16 2)).length = 8 ∧
    (primitive_list_removeAt (addAll ObjList.empty [Value.bool true, Value.null])
      (Value.ofInt 1)).2.elements.length = 16 ∧
    (primitive_list_removeAt (addAll ObjList.empty [Value.bool true, Value.null])
      (Value.ofInt 1)).2.buffer = BufferState.stale := by
  decide

/-- Claim C20, the code at the failing input.  A list of 16 elements has capacity 16;
when it grows for a 17th, `ensureListCapacity` passes the old size 32 (in units of
`sizeof(Value)`), not 16, the size of the buffer the list holds, with the new size 32. -/
theorem ensureListCapacity_old_size :
    (addAll ObjList.empty (List.replicate 16 Value.null)).capacity = 16 ∧
    (ensureListCapacity (addAll ObjList.empty (List.replicate 16 Value.null)) 17).2 =
      some ⟨32, 32⟩ ∧
    (ensureListCapacity (addAll ObjList.empty (List.replicate 16 Value.null)) 17).1.capacity
      = 32 := by
  decide

end Wren
